import Mathlib

/-!
The library `dgu`: typed test-data synthesis from a scalar stream.

A shallow embedding of `include/dgu/generators.hpp`, `include/dgu/detail/tuple_struct.hpp`
and `include/dgu/dgu.hpp`, followed by theorems about the embedded code.

Conventions of the embedding.

* A C++ `double` is a rational number: the finite values.  Infinities and NaN are
  outside the model.
* A mutable object is a value that is passed in and returned (state passing).
* An element access outside a `std::vector` has no defined behaviour; the embedding
  returns `none` in that case and `some` otherwise.
* A template parameter pack `Args...` is the list of its arithmetic types; a struct
  type `S` is its `Layout`.
-/

namespace dgu

/-! ## Arithmetic types and `static_cast` from `double` -/

/-- The arithmetic types (`std::is_arithmetic`): `bool`, the signed and unsigned integer
types of a given bit width (character types included), and the floating types. -/
inductive Arith where
  | bool
  | signed (bits : ℕ)
  | unsigned (bits : ℕ)
  | float
  | double
  | long_double
deriving DecidableEq

/-- The content of an object of arithmetic type: a number, or the unspecified content that
a conversion produces when the language does not define its result (the source value is
outside the range of the destination type). -/
inductive Num where
  | val (q : ℚ)
  | indeterminate
deriving DecidableEq

/-- Smallest value of an integer type, `std::numeric_limits<T>::min()` for integral `T`. -/
def Arith.lo : Arith → ℤ
  | .signed w => -(2 ^ (w - 1))
  | _ => 0

/-- Largest value of an integer type, `std::numeric_limits<T>::max()` for integral `T`
(`0` for the floating types, for which it is not used). -/
def Arith.hi : Arith → ℤ
  | .bool => 1
  | .signed w => 2 ^ (w - 1) - 1
  | .unsigned w => 2 ^ w - 1
  | _ => 0

/-- The value `std::numeric_limits<T>::min()`: the smallest value of an integral type and
the smallest positive normal value of a floating type (binary32, binary64, and the
15-bit-exponent format for `long double`). -/
def numeric_limits_min : Arith → ℚ
  | .float => 2 ^ (-126 : ℤ)
  | .double => 2 ^ (-1022 : ℤ)
  | .long_double => 2 ^ (-16382 : ℤ)
  | T => T.lo

/-- Floating-integral conversion discards the fractional part (truncation toward zero). -/
def trunc (v : ℚ) : ℤ := if 0 ≤ v then ⌊v⌋ else ⌈v⌉

/-- Rounding of a rational to an integer, to nearest, ties to the even integer. -/
def round_half_even (x : ℚ) : ℤ :=
  if x - ⌊x⌋ < 1 / 2 then ⌊x⌋
  else if 1 / 2 < x - ⌊x⌋ then ⌊x⌋ + 1
  else if ⌊x⌋ % 2 = 0 then ⌊x⌋ else ⌊x⌋ + 1

/-- The spacing of binary32 values around `v`: 24 significant bits, smallest normal
exponent `-126` (below it the spacing is that of the subnormals, `2 ^ (-149)`). -/
def float_quantum (v : ℚ) : ℚ := 2 ^ (max (Int.log 2 |v|) (-126) - 23)

/-- Conversion of a `double` to `float` (binary32, round to nearest, ties to even).  A
result of magnitude `2 ^ 128` or more is not a finite `float`. -/
def to_float (v : ℚ) : Num :=
  if |(round_half_even (v / float_quantum v) : ℚ) * float_quantum v| < 2 ^ 128 then
    .val (round_half_even (v / float_quantum v) * float_quantum v)
  else .indeterminate

/-- The conversion `static_cast<T>(v)` of a `double` `v`.
* `bool`: `false` (0) for zero, `true` (1) otherwise;
* integer types: the fractional part is discarded; the result is unspecified when the
  truncated value is not representable in `T`;
* `float`: rounded to binary32; `double`, `long double`: the value itself. -/
def static_cast (T : Arith) (v : ℚ) : Num :=
  match T with
  | .bool => .val (if v = 0 then 0 else 1)
  | .signed w =>
      if (Arith.signed w).lo ≤ trunc v ∧ trunc v ≤ (Arith.signed w).hi then .val (trunc v)
      else .indeterminate
  | .unsigned w =>
      if (Arith.unsigned w).lo ≤ trunc v ∧ trunc v ≤ (Arith.unsigned w).hi then .val (trunc v)
      else .indeterminate
  | .float => to_float v
  | .double => .val v
  | .long_double => .val v

/-- The floating types (`std::is_floating_point`). -/
def Arith.is_floating : Arith → Bool
  | .float => true
  | .double => true
  | .long_double => true
  | _ => false

/-- The integral types (`std::is_integral`): the arithmetic types that are not floating;
`bool` is one of them. -/
def Arith.is_integral (T : Arith) : Bool := !T.is_floating

/-- The range of an integral type contains the number `v`. -/
def Arith.contains (T : Arith) (v : ℚ) : Prop := (T.lo : ℚ) ≤ v ∧ v ≤ (T.hi : ℚ)

/-! ## Struct layouts and aggregate initialisation (`tuple_struct.hpp`) -/

/-- The layout of a type `U` accepted by `DataGenerator::next` (trivial, not an array at top
level): an arithmetic type, or an aggregate of such layouts in declaration order. -/
inductive Layout where
  | arith (T : Arith)
  | aggregate (fields : List Layout)

/-- A value of a layout: the content of an arithmetic object, or the values of the fields
of an aggregate in declaration order. -/
inductive Value where
  | arith (x : Num)
  | aggregate (fields : List Value)

mutual
/-- Initialisation of an object of layout `S` from a flat initializer list, as the braced
list `{std::get<Is>(tup)...}` of `_to_struct` does it: initializers are consumed left to
right in declaration order (brace elision descends into nested aggregates), and what has
no initializer is zero.  Returns the object and the initializers left over. -/
def Layout.init : Layout → List Num → Value × List Num
  | .arith _, [] => (.arith (.val 0), [])
  | .arith _, x :: rest => (.arith x, rest)
  | .aggregate fs, xs => (.aggregate (Layout.init_fields fs xs).1, (Layout.init_fields fs xs).2)
/-- Initialisation of the fields of an aggregate, first field first. -/
def Layout.init_fields : List Layout → List Num → List Value × List Num
  | [], xs => ([], xs)
  | f :: fs, xs =>
      ((f.init xs).1 :: (Layout.init_fields fs (f.init xs).2).1,
        (Layout.init_fields fs (f.init xs).2).2)
end

/-- The function `_to_struct<S>(tup)`: the struct `S {std::get<0>(tup), ..., std::get<k-1>(tup)}`. -/
def _to_struct (S : Layout) (tup : List Num) : Value := (S.init tup).1

/-! ## Streams -/

/-- What `DataGenerator<Gen>` requires of `Gen`: `operator*` reads the current value and
`operator++(int)` advances.  Advancing is `none` when the underlying generator reads
outside its data. -/
class Gen (σ : Type) where
  deref : σ → ℚ
  incr : σ → Option σ

/-- What `boost::generator_iterator` requires of its generator: `operator()` returns the
next value (and changes the generator). -/
class Generator (G : Type) where
  operator_call : G → Option (ℚ × G)

/-- The class `vectorized_generator_impl`: the predefined data and an iterator into it,
held as its distance from `_generator.begin()` (`_generator.end()` is the length). -/
structure vectorized_generator_impl where
  _generator : List ℚ
  _vec_it : ℕ
deriving DecidableEq

/-- The constructor `vectorized_generator_impl(vec)`: `_vec_it(_generator.begin())`. -/
def vectorized_generator_impl.new (vec : List ℚ) : vectorized_generator_impl :=
  { _generator := vec, _vec_it := 0 }

/-- The call operator `vectorized_generator_impl::operator()`:
`_vec_it == _generator.end() ? _vec_it = _generator.begin(), *(_vec_it++) : *(_vec_it++)`. -/
def vectorized_generator_impl.operator_call (g : vectorized_generator_impl) :
    Option (ℚ × vectorized_generator_impl) :=
  if g._vec_it = g._generator.length then
    (g._generator[0]?).map fun x => (x, { g with _vec_it := 0 + 1 })
  else
    (g._generator[g._vec_it]?).map fun x => (x, { g with _vec_it := g._vec_it + 1 })

instance : Generator vectorized_generator_impl where
  operator_call := vectorized_generator_impl.operator_call

/-- Modelled from the spec: `boost::generator_iterator<G>` is a library type that is not among
the sources.  It holds the generator it iterates (`m_g`, a pointer in C++; here the
generator's state) and the current value `m_value`; a pull reads the current value and
then advances, so the current value is fetched ahead. -/
structure generator_iterator (G : Type) where
  m_g : G
  m_value : ℚ
deriving DecidableEq

/-- Modelled from the spec: `boost::make_generator_iterator(gen)` fetches the first value
from the generator when the iterator is constructed. -/
def make_generator_iterator {G : Type} [Generator G] (gen : G) : Option (generator_iterator G) :=
  (Generator.operator_call gen).map fun r => { m_g := r.2, m_value := r.1 }

/-- Modelled from the spec: incrementing a `boost::generator_iterator` fetches the next value
from the generator. -/
def generator_iterator.increment {G : Type} [Generator G] (it : generator_iterator G) :
    Option (generator_iterator G) :=
  (Generator.operator_call it.m_g).map fun r => { m_g := r.2, m_value := r.1 }

/-- Modelled from the spec: dereferencing a `boost::generator_iterator` returns the value
fetched last, without touching the generator. -/
def generator_iterator.dereference {G : Type} (it : generator_iterator G) : ℚ := it.m_value

/-- The class `vectorized_generator`.  In C++ it holds `_gen` and the iterator `_it` that
points to `_gen`; here `_gen` is the generator held inside `_it`. -/
structure vectorized_generator where
  _it : generator_iterator vectorized_generator_impl
deriving DecidableEq

/-- The constructor `vectorized_generator(vec)`:
`_gen(vec), _it(boost::make_generator_iterator<>(_gen))`. -/
def vectorized_generator.new (vec : List ℚ) : Option vectorized_generator :=
  (make_generator_iterator (vectorized_generator_impl.new vec)).map fun it => { _it := it }

/-- The operator `vectorized_generator::operator++(int)`: `_it++`. -/
def vectorized_generator.incr (g : vectorized_generator) : Option vectorized_generator :=
  g._it.increment.map fun it => { _it := it }

/-- The operator `vectorized_generator::operator*`: `*_it`. -/
def vectorized_generator.deref (g : vectorized_generator) : ℚ := g._it.dereference

instance : Gen vectorized_generator where
  deref := vectorized_generator.deref
  incr := vectorized_generator.incr

/-! ## Struct generation (`tuple_struct.hpp`) -/

/-- The function `_f(it, _v)`: `_v = static_cast<T>(*it); it++;`.  Returns the iterator and
the new content of `_v`; the old content is not read. -/
def _f {σ : Type} [Gen σ] (T : Arith) (it : σ) (_v : Num) : Option (σ × Num) :=
  (Gen.incr it).map fun it1 => (it1, static_cast T (Gen.deref it))

/-- The fold expression `(_f(it, defaults), ...)` over the comma operator: `_f` is applied
to the parameters from left to right. -/
def fold_f {σ : Type} [Gen σ] : List (Arith × Num) → σ → Option (σ × List Num)
  | [], it => some (it, [])
  | d :: rest, it =>
      (_f d.1 it d.2).bind fun r =>
        (fold_f rest r.1).map fun r1 => (r1.1, r.2 :: r1.2)

/-- The function `_struct_from_params<S>(it, defaults...)`: regenerate every parameter with
`_f`, pack the parameters in a tuple and convert the tuple to `S`. -/
def _struct_from_params {σ : Type} [Gen σ] (S : Layout) (it : σ)
    (defaults : List (Arith × Num)) : Option (Value × σ) :=
  (fold_f defaults it).map fun r => (_to_struct S r.2, r.1)

/-- The function `generate_struct<S, Gen, Args...>(it)`:
`_struct_from_params<S>(it, std::numeric_limits<Args>::min()...)`. -/
def generate_struct {σ : Type} [Gen σ] (S : Layout) (Args : List Arith) (it : σ) :
    Option (Value × σ) :=
  _struct_from_params S it (Args.map fun T => (T, Num.val (numeric_limits_min T)))

/-! ## `DataGenerator` (`dgu.hpp`) -/

/-- The class `DataGenerator<Gen>`: it owns the generator `_it`. -/
structure DataGenerator (σ : Type) where
  _it : σ

/-- The member `DataGenerator::next<U, Args...>()`: for an arithmetic `U`,
`auto ret = *_it; _it++; return static_cast<U>(ret);`, otherwise
`detail::generate_struct<U, decltype(_it), Args...>(_it)`. -/
def DataGenerator.next {σ : Type} [Gen σ] (U : Layout) (Args : List Arith)
    (self : DataGenerator σ) : Option (Value × DataGenerator σ) :=
  match U with
  | .arith T =>
      (Gen.incr self._it).map fun it1 =>
        (Value.arith (static_cast T (Gen.deref self._it)), { _it := it1 })
  | .aggregate _ =>
      (generate_struct U Args self._it).map fun r => (r.1, { _it := r.2 })

/-- The loop of `fill_vector`, `for (; i < vec.size(); i++) vec[i] = next<UDT, Args...>();`
with `fuel` iterations allowed. -/
def DataGenerator.fill_loop {σ : Type} [Gen σ] (UDT : Layout) (Args : List Arith) :
    ℕ → ℕ → List Value → DataGenerator σ → Option (List Value × DataGenerator σ)
  | 0, _, vec, self => some (vec, self)
  | fuel + 1, i, vec, self =>
      if i < vec.length then
        (self.next UDT Args).bind fun r =>
          DataGenerator.fill_loop UDT Args fuel (i + 1) (vec.set i r.1) r.2
      else some (vec, self)

/-- The member `DataGenerator::fill_vector<UDT, Args...>(vec)`: the loop from index `0`; it
ends after `vec.size()` iterations. -/
def DataGenerator.fill_vector {σ : Type} [Gen σ] (UDT : Layout) (Args : List Arith)
    (vec : List Value) (self : DataGenerator σ) : Option (List Value × DataGenerator σ) :=
  DataGenerator.fill_loop UDT Args vec.length 0 vec self

/-! ## Vocabulary of the statements -/

/-- The stream advanced `k` times: `k` successive `operator++(int)`. -/
def Gen.advance {σ : Type} [Gen σ] : ℕ → σ → Option σ
  | 0, s => some s
  | k + 1, s => (Gen.incr s).bind (Gen.advance k)

/-- One pull: read the current value, then increment. -/
def Gen.pull {σ : Type} [Gen σ] (s : σ) : Option (ℚ × σ) :=
  (Gen.incr s).map fun s1 => (Gen.deref s, s1)

/-- The values of `k` successive pulls, in the order pulled, and the stream after them. -/
def Gen.pulls {σ : Type} [Gen σ] : ℕ → σ → Option (List ℚ × σ)
  | 0, s => some ([], s)
  | k + 1, s =>
      (Gen.pull s).bind fun r => (Gen.pulls k r.2).map fun r1 => (r.1 :: r1.1, r1.2)

/-- The element `vs[k mod |vs|]` of a non-empty sequence. -/
def nth_cyclic (vs : List ℚ) (h : vs ≠ []) (k : ℕ) : ℚ :=
  vs.get ⟨k % vs.length, Nat.mod_lt k (List.length_pos.2 h)⟩

/-- The state of a `vectorized_generator` over `vs` whose current value is
`vs[k mod |vs|]`: the iterator of the generator stands one past that element. -/
def vectorized_generator.at_pull (vs : List ℚ) (h : vs ≠ []) (k : ℕ) : vectorized_generator :=
  { _it := { m_g := { _generator := vs, _vec_it := k % vs.length + 1 },
             m_value := nth_cyclic vs h k } }

mutual
/-- The arithmetic types of the leaf fields of a layout, in declaration order. -/
def Layout.leaf_types : Layout → List Arith
  | .arith T => [T]
  | .aggregate fs => Layout.leaf_types_fields fs
/-- The leaf types of a list of fields, first field first. -/
def Layout.leaf_types_fields : List Layout → List Arith
  | [] => []
  | f :: fs => f.leaf_types ++ Layout.leaf_types_fields fs
end

mutual
/-- The contents of the leaf fields of a value, in declaration order. -/
def Value.leaves : Value → List Num
  | .arith x => [x]
  | .aggregate vs => Value.leaves_fields vs
/-- The leaves of a list of field values, first field first. -/
def Value.leaves_fields : List Value → List Num
  | [] => []
  | v :: vs => v.leaves ++ Value.leaves_fields vs
end

mutual
/-- A value has a layout when it is an arithmetic object where the layout is an arithmetic
type and an aggregate with the same fields, field by field, where it is an aggregate. -/
def Value.has_layout : Value → Layout → Prop
  | .arith _, .arith _ => True
  | .aggregate vs, .aggregate fs => Value.have_layouts vs fs
  | .arith _, .aggregate _ => False
  | .aggregate _, .arith _ => False
/-- Field values have the layouts of the fields, pairwise. -/
def Value.have_layouts : List Value → List Layout → Prop
  | [], [] => True
  | v :: vs, f :: fs => v.has_layout f ∧ Value.have_layouts vs fs
  | [], _ :: _ => False
  | _ :: _, [] => False
end

/-- The number of pulls that the description `<U, Args...>` of a shape stands for: one for an
arithmetic type, and the number of leaf types listed for an aggregate. -/
def leaf_count (U : Layout) (Args : List Arith) : ℕ :=
  match U with
  | .arith _ => 1
  | .aggregate _ => Args.length

/-- The results of `L` successive calls of `next<U, Args...>()`, in call order, and the
generator after them. -/
def DataGenerator.nexts {σ : Type} [Gen σ] (U : Layout) (Args : List Arith) :
    ℕ → DataGenerator σ → Option (List Value × DataGenerator σ)
  | 0, self => some ([], self)
  | L + 1, self =>
      (self.next U Args).bind fun r =>
        (DataGenerator.nexts U Args L r.2).map fun r1 => (r.1 :: r1.1, r1.2)

/-- The sequence filler as the specification words it: for index `i = 0 .. L-1` in order,
`container[i] = synthesize<Shape>(stream)`. -/
def fill_spec {σ : Type} [Gen σ] (U : Layout) (Args : List Arith) (vec : List Value)
    (self : DataGenerator σ) : Option (List Value × DataGenerator σ) :=
  (List.range vec.length).foldlM
    (fun acc i => (acc.2.next U Args).map fun r => (acc.1.set i r.1, r.2)) (vec, self)

/-- The value that `next<U, Args...>()` assembles from the values `vs[k mod |vs|]`,
`vs[(k+1) mod |vs|]`, ... of a cyclic sequence: the converted value itself for an arithmetic
`U`, and otherwise the struct initialised with the values converted to `Args`, in order. -/
def synthesized_at (U : Layout) (Args : List Arith) (vs : List ℚ) (h : vs ≠ []) (k : ℕ) :
    Value :=
  match U with
  | .arith T => Value.arith (static_cast T (nth_cyclic vs h k))
  | .aggregate _ =>
      _to_struct U (List.zipWith static_cast Args ((List.range' k Args.length).map (nth_cyclic vs h)))

/-! ## The random stream (`generators.hpp`) -/

/-- Modelled from the spec: the engine `boost::random::mt19937` is a library type that is not
among the sources.  It is a deterministic source of 32-bit words, fixed by its seed: the
sequence `words` it will produce and the position `pos` reached in it. -/
structure mt19937 where
  words : ℕ → ℕ
  pos : ℕ

/-- Modelled from the spec: one call of the engine returns the next 32-bit word and moves on. -/
def mt19937.operator_call (eng : mt19937) : ℕ × mt19937 :=
  (eng.words eng.pos % 2 ^ 32, { eng with pos := eng.pos + 1 })

/-- Modelled from the spec: `boost::random::uniform_real_distribution<double>` is a library
type that is not among the sources; it holds the closed interval `[min, max]` supplied by
the caller. -/
structure uniform_real_distribution where
  _min : ℚ
  _max : ℚ

/-- Modelled from the spec: one draw from the uniform distribution over the closed interval
`[min, max]`: the word of the engine, scaled to a fraction of the interval. -/
def uniform_real_distribution.operator_call (d : uniform_real_distribution) (eng : mt19937) :
    ℚ × mt19937 :=
  (d._min + (eng.operator_call.1 : ℚ) / (2 ^ 32 - 1) * (d._max - d._min), eng.operator_call.2)

/-- The class `random_generator_impl`: the value generated last, the engine and the
distribution. -/
structure random_generator_impl where
  state : ℚ
  _eng : mt19937
  _generator : uniform_real_distribution

/-- The constructor `random_generator_impl(min, max)`: `state(0.0), _generator(min, max)`.
The engine `_eng` is default-constructed, with the fixed default seed; it is the argument
`eng`. -/
def random_generator_impl.new (eng : mt19937) (min max : ℚ) : random_generator_impl :=
  { state := 0, _eng := eng, _generator := { _min := min, _max := max } }

/-- The member `random_generator_impl::_rand_num()`: `return _generator(_eng);`. -/
def random_generator_impl._rand_num (g : random_generator_impl) : ℚ × random_generator_impl :=
  ((g._generator.operator_call g._eng).1, { g with _eng := (g._generator.operator_call g._eng).2 })

/-- The call operator `random_generator_impl::operator()`:
`state = _rand_num(); return state;`. -/
def random_generator_impl.operator_call (g : random_generator_impl) :
    ℚ × random_generator_impl :=
  (g._rand_num.1, { g._rand_num.2 with state := g._rand_num.1 })

instance : Generator random_generator_impl where
  operator_call := fun g => some g.operator_call

/-- The class `random_generator`.  As for `vectorized_generator`, `_gen` is the generator
held inside `_it`. -/
structure random_generator where
  _it : generator_iterator random_generator_impl

/-- The constructor `random_generator(min, max)`:
`_gen(min, max), _it(boost::make_generator_iterator<>(_gen))`. -/
def random_generator.new (eng : mt19937) (min max : ℚ) : Option random_generator :=
  (make_generator_iterator (random_generator_impl.new eng min max)).map fun it => { _it := it }

/-- The operator `random_generator::operator++(int)`: `_it++`. -/
def random_generator.incr (g : random_generator) : Option random_generator :=
  g._it.increment.map fun it => { _it := it }

/-- The operator `random_generator::operator*`: `*_it`. -/
def random_generator.deref (g : random_generator) : ℚ := g._it.dereference

instance : Gen random_generator where
  deref := random_generator.deref
  incr := random_generator.incr

/-! ## Further vocabulary of the statements -/

/-- The index of the element that `vectorized_generator_impl::operator()` reads: the
iterator itself, or `begin()` when the iterator stands at `end()`. -/
def vectorized_generator_impl.access_index (g : vectorized_generator_impl) : ℕ :=
  if g._vec_it = g._generator.length then 0 else g._vec_it

/-- A stream together with the number of `operator++(int)` calls made on it. -/
structure counted (σ : Type) where
  stream : σ
  increments : ℕ

instance {σ : Type} [Gen σ] : Gen (counted σ) where
  deref := fun c => Gen.deref c.stream
  incr := fun c => (Gen.incr c.stream).map fun s => { stream := s, increments := c.increments + 1 }

/-- A call on a `DataGenerator`: `next<U, Args...>()` or `fill_vector<UDT, Args...>(vec)`. -/
inductive Call where
  | next (U : Layout) (Args : List Arith)
  | fill_vector (UDT : Layout) (Args : List Arith) (vec : List Value)

/-- What a call gives back: the value returned by `next`, or the vector as `fill_vector`
leaves it. -/
inductive Outcome where
  | value (v : Value)
  | vector (vec : List Value)

/-- One call on a `DataGenerator`. -/
def DataGenerator.call {σ : Type} [Gen σ] (c : Call) (self : DataGenerator σ) :
    Option (Outcome × DataGenerator σ) :=
  match c with
  | .next U Args => (self.next U Args).map fun r => (Outcome.value r.1, r.2)
  | .fill_vector UDT Args vec =>
      (self.fill_vector UDT Args vec).map fun r => (Outcome.vector r.1, r.2)

/-- A sequence of calls on a `DataGenerator`, first call first: the outcome of every call and
the generator after the last. -/
def DataGenerator.run {σ : Type} [Gen σ] :
    List Call → DataGenerator σ → Option (List Outcome × DataGenerator σ)
  | [], self => some ([], self)
  | c :: rest, self =>
      (self.call c).bind fun r =>
        (DataGenerator.run rest r.2).map fun r1 => (r.1 :: r1.1, r1.2)

/-- The results of the successive calls `next<T1>()`, ..., `next<Tn>()` for arithmetic types
`T1..Tn`, in call order, and the generator after them. -/
def DataGenerator.next_each {σ : Type} [Gen σ] :
    List Arith → DataGenerator σ → Option (List Value × DataGenerator σ)
  | [], self => some ([], self)
  | T :: rest, self =>
      (self.next (.arith T) []).bind fun r =>
        (DataGenerator.next_each rest r.2).map fun r1 => (r.1 :: r1.1, r1.2)

/-! ## Pulls and increments of an arbitrary stream -/

section stream
variable {σ : Type} [Gen σ]

theorem Gen.pulls_state (k : ℕ) (s : σ) :
    (Gen.pulls k s).map Prod.snd = Gen.advance k s := by
  induction k generalizing s with
  | zero => rfl
  | succ k ih =>
    simp only [Gen.pulls, Gen.advance, Gen.pull]
    cases hi : Gen.incr s with
    | none => rfl
    | some s1 =>
      have h1 := ih s1
      cases hp : Gen.pulls k s1 with
      | none => simpa [hp] using h1
      | some r => simpa [hp] using h1

theorem Gen.advance_add (a b : ℕ) (s : σ) :
    Gen.advance (a + b) s = (Gen.advance a s).bind (Gen.advance b) := by
  induction a generalizing s with
  | zero => simp [Gen.advance]
  | succ a ih =>
    rw [Nat.succ_add]
    simp only [Gen.advance]
    cases Gen.incr s with
    | none => rfl
    | some s1 => simpa using ih s1

theorem Gen.pulls_add (a b : ℕ) (s : σ) :
    Gen.pulls (a + b) s =
      (Gen.pulls a s).bind fun r => (Gen.pulls b r.2).map fun r1 => (r.1 ++ r1.1, r1.2) := by
  induction a generalizing s with
  | zero =>
    simp only [Nat.zero_add, Gen.pulls, Option.some_bind, List.nil_append]
    cases Gen.pulls b s <;> rfl
  | succ a ih =>
    rw [Nat.succ_add]
    simp only [Gen.pulls]
    cases Gen.pull s with
    | none => rfl
    | some r =>
      simp only [Option.some_bind, ih]
      cases Gen.pulls a r.2 with
      | none => rfl
      | some r1 =>
        simp only [Option.some_bind, Option.map_some']
        cases Gen.pulls b r1.2 <;> simp

theorem fold_f_eq (ds : List (Arith × Num)) (it : σ) :
    fold_f ds it =
      (Gen.pulls ds.length it).map fun r =>
        (r.2, List.zipWith static_cast (ds.map Prod.fst) r.1) := by
  induction ds generalizing it with
  | nil => rfl
  | cons d rest ih =>
    simp only [fold_f, _f, List.length_cons, Gen.pulls, Gen.pull, List.map_cons]
    cases Gen.incr it with
    | none => rfl
    | some it1 =>
      simp only [Option.map_some', Option.some_bind, ih]
      cases Gen.pulls rest.length it1 <;> simp

theorem generate_struct_eq (S : Layout) (Args : List Arith) (it : σ) :
    generate_struct S Args it =
      (Gen.pulls Args.length it).map fun r =>
        (_to_struct S (List.zipWith static_cast Args r.1), r.2) := by
  simp only [generate_struct, _struct_from_params, fold_f_eq, List.length_map, List.map_map]
  have : (Prod.fst ∘ fun T => (T, Num.val (numeric_limits_min T))) = (id : Arith → Arith) := rfl
  rw [this, List.map_id]
  cases Gen.pulls Args.length it <;> rfl

theorem DataGenerator.next_state (U : Layout) (Args : List Arith) (self : DataGenerator σ) :
    (self.next U Args).map (fun r => r.2._it) = Gen.advance (leaf_count U Args) self._it := by
  cases U with
  | arith T =>
    simp only [DataGenerator.next, leaf_count, Gen.advance]
    cases Gen.incr self._it <;> rfl
  | aggregate fs =>
    simp only [DataGenerator.next, leaf_count, generate_struct_eq, ← Gen.pulls_state]
    cases Gen.pulls Args.length self._it <;> rfl

end stream

/-! ## The cyclic stream -/

theorem nth_cyclic_getElem_opt (vs : List ℚ) (h : vs ≠ []) (k : ℕ) :
    vs[k % vs.length]? = some (nth_cyclic vs h k) := by
  unfold nth_cyclic
  rw [List.get_eq_getElem]
  exact List.getElem?_eq_getElem _

theorem succ_mod_cases (n k : ℕ) (hn : 0 < n) :
    (k % n + 1 = n ∧ (k + 1) % n = 0) ∨ (k % n + 1 < n ∧ (k + 1) % n = k % n + 1) := by
  have hlt : k % n < n := Nat.mod_lt k hn
  have hmod : (k + 1) % n = (k % n + 1) % n := (Nat.mod_add_mod k n 1).symm
  by_cases hc : k % n + 1 = n
  · left
    refine ⟨hc, ?_⟩
    rw [hmod, hc, Nat.mod_self]
  · right
    have hlt1 : k % n + 1 < n := by omega
    exact ⟨hlt1, by rw [hmod, Nat.mod_eq_of_lt hlt1]⟩

theorem vectorized_generator.new_eq (vs : List ℚ) (h : vs ≠ []) :
    vectorized_generator.new vs = some (vectorized_generator.at_pull vs h 0) := by
  have hn : 0 < vs.length := List.length_pos.2 h
  have h0 := nth_cyclic_getElem_opt vs h 0
  rw [Nat.zero_mod] at h0
  simp only [vectorized_generator.new, make_generator_iterator, Generator.operator_call,
    vectorized_generator_impl.operator_call, vectorized_generator_impl.new,
    vectorized_generator.at_pull]
  rw [if_neg (by omega), h0]
  simp

theorem vectorized_generator.incr_at_pull (vs : List ℚ) (h : vs ≠ []) (k : ℕ) :
    Gen.incr (vectorized_generator.at_pull vs h k) =
      some (vectorized_generator.at_pull vs h (k + 1)) := by
  have hn : 0 < vs.length := List.length_pos.2 h
  have h1 := nth_cyclic_getElem_opt vs h (k + 1)
  simp only [Gen.incr, vectorized_generator.incr, generator_iterator.increment,
    Generator.operator_call, vectorized_generator_impl.operator_call,
    vectorized_generator.at_pull]
  rcases succ_mod_cases vs.length k hn with ⟨hc, hm⟩ | ⟨hc, hm⟩
  · rw [hm] at h1
    rw [if_pos hc, h1, hm]
    simp
  · rw [hm] at h1
    rw [if_neg (by omega), h1, hm]
    simp

theorem vectorized_generator.deref_at_pull (vs : List ℚ) (h : vs ≠ []) (k : ℕ) :
    Gen.deref (vectorized_generator.at_pull vs h k) = nth_cyclic vs h k := rfl

theorem vectorized_generator.advance_at_pull (vs : List ℚ) (h : vs ≠ []) (j k : ℕ) :
    Gen.advance j (vectorized_generator.at_pull vs h k) =
      some (vectorized_generator.at_pull vs h (k + j)) := by
  induction j generalizing k with
  | zero => rfl
  | succ j ih =>
    simp only [Gen.advance, vectorized_generator.incr_at_pull, Option.some_bind, ih]
    rw [Nat.add_right_comm, Nat.add_assoc]

theorem vectorized_generator.pulls_at_pull (vs : List ℚ) (h : vs ≠ []) (j k : ℕ) :
    Gen.pulls j (vectorized_generator.at_pull vs h k) =
      some ((List.range' k j).map (nth_cyclic vs h),
        vectorized_generator.at_pull vs h (k + j)) := by
  induction j generalizing k with
  | zero => rfl
  | succ j ih =>
    simp only [Gen.pulls, Gen.pull, vectorized_generator.incr_at_pull, Option.map_some',
      Option.some_bind, ih, vectorized_generator.deref_at_pull, List.range'_succ,
      List.map_cons]
    rw [Nat.add_right_comm, Nat.add_assoc]

/-! ## Aggregate initialisation -/

theorem take_pad_append {α : Type} (xs : List α) (a b : ℕ) (z : α) :
    (xs.take a ++ List.replicate (a - xs.length) z) ++
        ((xs.drop a).take b ++ List.replicate (b - (xs.drop a).length) z) =
      xs.take (a + b) ++ List.replicate (a + b - xs.length) z := by
  by_cases h : a ≤ xs.length
  · have e1 : a - xs.length = 0 := by omega
    have e2 : b - (xs.drop a).length = a + b - xs.length := by
      rw [List.length_drop]; omega
    rw [e1, e2, List.take_add]
    simp
  · have hl : xs.length ≤ a := by omega
    have e3 : a - xs.length + b = a + b - xs.length := by omega
    rw [List.take_of_length_le hl, List.drop_of_length_le hl,
      List.take_of_length_le (by omega : xs.length ≤ a + b)]
    rw [List.take_nil, List.nil_append, List.append_assoc, List.length_nil, Nat.sub_zero,
      ← List.replicate_add, e3]

mutual
theorem Layout.init_spec (S : Layout) (xs : List Num) :
    (S.init xs).1.leaves =
        xs.take S.leaf_types.length ++
          List.replicate (S.leaf_types.length - xs.length) (Num.val 0) ∧
      (S.init xs).2 = xs.drop S.leaf_types.length ∧ (S.init xs).1.has_layout S := by
  cases S with
  | arith T =>
    cases xs with
    | nil => simp [Layout.init, Value.leaves, Layout.leaf_types, Value.has_layout]
    | cons x rest => simp [Layout.init, Value.leaves, Layout.leaf_types, Value.has_layout]
  | aggregate fs =>
    have h := Layout.init_fields_spec fs xs
    simpa [Layout.init, Value.leaves, Layout.leaf_types, Value.has_layout] using h
theorem Layout.init_fields_spec (fs : List Layout) (xs : List Num) :
    Value.leaves_fields (Layout.init_fields fs xs).1 =
        xs.take (Layout.leaf_types_fields fs).length ++
          List.replicate ((Layout.leaf_types_fields fs).length - xs.length) (Num.val 0) ∧
      (Layout.init_fields fs xs).2 = xs.drop (Layout.leaf_types_fields fs).length ∧
      Value.have_layouts (Layout.init_fields fs xs).1 fs := by
  cases fs with
  | nil => simp [Layout.init_fields, Value.leaves_fields, Layout.leaf_types_fields,
      Value.have_layouts]
  | cons f rest =>
    obtain ⟨h1, h2, h3⟩ := Layout.init_spec f xs
    obtain ⟨k1, k2, k3⟩ := Layout.init_fields_spec rest (f.init xs).2
    rw [h2] at k1 k2
    refine ⟨?_, ?_, ?_⟩
    · simp only [Layout.init_fields, Value.leaves_fields, Layout.leaf_types_fields,
        List.length_append, h1]
      rw [h2, k1]
      exact take_pad_append xs _ _ _
    · simp only [Layout.init_fields, Layout.leaf_types_fields, List.length_append]
      rw [h2, k2, List.drop_drop, Nat.add_comm]
    · simp only [Layout.init_fields, Value.have_layouts]
      exact ⟨h3, k3⟩
end

theorem _to_struct_leaves (S : Layout) (xs : List Num) (h : xs.length = S.leaf_types.length) :
    (_to_struct S xs).leaves = xs ∧ (_to_struct S xs).has_layout S := by
  obtain ⟨h1, -, h3⟩ := Layout.init_spec S xs
  refine ⟨?_, h3⟩
  rw [_to_struct, h1, ← h, List.take_length, Nat.sub_self]
  simp

theorem init_fields_arith (Ts : List Arith) (xs : List Num) (h : xs.length = Ts.length) :
    Layout.init_fields (Ts.map Layout.arith) xs = (xs.map Value.arith, []) := by
  induction Ts generalizing xs with
  | nil =>
    cases xs with
    | nil => rfl
    | cons x rest => simp at h
  | cons T rest ih =>
    cases xs with
    | nil => simp at h
    | cons x xs =>
      simp only [List.length_cons, Nat.add_right_cancel_iff] at h
      simp [Layout.init_fields, Layout.init, ih xs h]

theorem _to_struct_flat (Ts : List Arith) (xs : List Num) (h : xs.length = Ts.length) :
    _to_struct (Layout.aggregate (Ts.map Layout.arith)) xs =
      Value.aggregate (xs.map Value.arith) := by
  simp [_to_struct, Layout.init, init_fields_arith Ts xs h]

/-! ## Repeated synthesis and the sequence filler -/

section filler
variable {σ : Type} [Gen σ]

theorem take_succ_set {α : Type} (vec : List α) (i : ℕ) (v : α) (h : i < vec.length) :
    (vec.set i v).take (i + 1) = vec.take i ++ [v] := by
  induction vec generalizing i with
  | nil => simp at h
  | cons x xs ih =>
    cases i with
    | zero => simp
    | succ i =>
      simp only [List.length_cons, Nat.add_lt_add_iff_right] at h
      simp [ih i h]

theorem DataGenerator.fill_loop_eq_nexts (U : Layout) (Args : List Arith) (fuel i : ℕ)
    (vec : List Value) (self : DataGenerator σ) (h : i + fuel = vec.length) :
    DataGenerator.fill_loop U Args fuel i vec self =
      (DataGenerator.nexts U Args fuel self).map fun r => (vec.take i ++ r.1, r.2) := by
  induction fuel generalizing i vec self with
  | zero =>
    have hi : i = vec.length := by omega
    subst hi
    simp [DataGenerator.fill_loop, DataGenerator.nexts]
  | succ fuel ih =>
    have hi : i < vec.length := by omega
    simp only [DataGenerator.fill_loop, DataGenerator.nexts, if_pos hi]
    cases self.next U Args with
    | none => rfl
    | some r =>
      simp only [Option.some_bind]
      rw [ih (i + 1) (vec.set i r.1) r.2 (by rw [List.length_set]; omega),
        take_succ_set vec i r.1 hi]
      cases DataGenerator.nexts U Args fuel r.2 <;> simp

theorem DataGenerator.fill_vector_eq_nexts (U : Layout) (Args : List Arith)
    (vec : List Value) (self : DataGenerator σ) :
    self.fill_vector U Args vec = DataGenerator.nexts U Args vec.length self := by
  rw [DataGenerator.fill_vector,
    DataGenerator.fill_loop_eq_nexts U Args vec.length 0 vec self (Nat.zero_add _)]
  cases DataGenerator.nexts U Args vec.length self <;> simp

theorem DataGenerator.nexts_length (U : Layout) (Args : List Arith) (L : ℕ)
    (self : DataGenerator σ) (out : List Value) (g : DataGenerator σ)
    (h : DataGenerator.nexts U Args L self = some (out, g)) : out.length = L := by
  induction L generalizing self out g with
  | zero =>
    simp only [DataGenerator.nexts, Option.some.injEq, Prod.mk.injEq] at h
    rw [← h.1]; rfl
  | succ L ih =>
    simp only [DataGenerator.nexts] at h
    cases hn : self.next U Args with
    | none => simp [hn] at h
    | some r =>
      rw [hn, Option.some_bind] at h
      cases hr : DataGenerator.nexts U Args L r.2 with
      | none => simp [hr] at h
      | some r1 =>
        rw [hr] at h
        simp only [Option.map_some', Option.some.injEq, Prod.mk.injEq] at h
        rw [← h.1, List.length_cons, ih r.2 r1.1 r1.2 (by rw [hr])]

theorem DataGenerator.nexts_state (U : Layout) (Args : List Arith) (L : ℕ)
    (self : DataGenerator σ) :
    (DataGenerator.nexts U Args L self).map (fun r => r.2._it) =
      Gen.advance (L * leaf_count U Args) self._it := by
  induction L generalizing self with
  | zero => simp [DataGenerator.nexts, Gen.advance]
  | succ L ih =>
    have e : (L + 1) * leaf_count U Args = leaf_count U Args + L * leaf_count U Args := by
      rw [Nat.succ_mul, Nat.add_comm]
    rw [e, Gen.advance_add, ← DataGenerator.next_state U Args self]
    simp only [DataGenerator.nexts]
    cases self.next U Args with
    | none => rfl
    | some r =>
      simp only [Option.some_bind, Option.map_some', ← ih r.2]
      cases DataGenerator.nexts U Args L r.2 <;> rfl

theorem foldlM_range_eq_fill_loop (U : Layout) (Args : List Arith) (fuel i : ℕ)
    (vec : List Value) (self : DataGenerator σ) (h : i + fuel = vec.length) :
    (List.range' i fuel).foldlM
        (fun (acc : List Value × DataGenerator σ) j =>
          (acc.2.next U Args).map fun r => (acc.1.set j r.1, r.2)) (vec, self) =
      DataGenerator.fill_loop U Args fuel i vec self := by
  induction fuel generalizing i vec self with
  | zero => rfl
  | succ fuel ih =>
    have hi : i < vec.length := by omega
    simp only [List.range'_succ, List.foldlM_cons, DataGenerator.fill_loop, if_pos hi]
    cases self.next U Args with
    | none => rfl
    | some r =>
      simp only [Option.map_some', Option.some_bind, Option.bind_eq_bind]
      exact ih (i + 1) (vec.set i r.1) r.2 (by rw [List.length_set]; omega)

end filler

/-! ## Synthesis from the cyclic stream -/

theorem DataGenerator.next_at_pull (U : Layout) (Args : List Arith) (vs : List ℚ)
    (h : vs ≠ []) (k : ℕ) :
    DataGenerator.next U Args { _it := vectorized_generator.at_pull vs h k } =
      some (synthesized_at U Args vs h k,
        { _it := vectorized_generator.at_pull vs h (k + leaf_count U Args) }) := by
  cases U with
  | arith T =>
    simp [DataGenerator.next, vectorized_generator.incr_at_pull, synthesized_at, leaf_count,
      vectorized_generator.deref_at_pull]
  | aggregate fs =>
    simp [DataGenerator.next, generate_struct_eq, vectorized_generator.pulls_at_pull,
      synthesized_at, leaf_count]

theorem DataGenerator.nexts_at_pull (U : Layout) (Args : List Arith) (vs : List ℚ)
    (h : vs ≠ []) (L k : ℕ) :
    DataGenerator.nexts U Args L { _it := vectorized_generator.at_pull vs h k } =
      some ((List.range' 0 L).map
          (fun i => synthesized_at U Args vs h (k + i * leaf_count U Args)),
        { _it := vectorized_generator.at_pull vs h (k + L * leaf_count U Args) }) := by
  induction L generalizing k with
  | zero => simp [DataGenerator.nexts]
  | succ L ih =>
    simp only [DataGenerator.nexts, DataGenerator.next_at_pull, Option.some_bind, ih,
      Option.map_some', Option.some.injEq, Prod.mk.injEq]
    refine ⟨?_, ?_⟩
    · have e : List.range' (0 + 1) L = (List.range' 0 L).map (fun i => 1 + i) := by
        rw [List.map_add_range']
      rw [List.range'_succ, List.map_cons, Nat.zero_mul, Nat.add_zero, e, List.map_map]
      congr 1
      apply List.map_congr_left
      intro i _
      simp only [Function.comp]
      congr 1
      rw [Nat.add_mul, Nat.one_mul]; omega
    · congr 2
      rw [Nat.succ_mul]; omega

theorem leaf_types_fields_arith (Ts : List Arith) :
    Layout.leaf_types_fields (Ts.map Layout.arith) = Ts := by
  induction Ts with
  | nil => rfl
  | cons T rest ih => simp [Layout.leaf_types_fields, Layout.leaf_types, ih]

theorem synthesized_at_leaves (S : Layout) (vs : List ℚ) (h : vs ≠ []) (k : ℕ) :
    (synthesized_at S S.leaf_types vs h k).leaves =
        List.zipWith static_cast S.leaf_types
          ((List.range S.leaf_types.length).map fun j => nth_cyclic vs h (k + j)) ∧
      (synthesized_at S S.leaf_types vs h k).has_layout S := by
  cases S with
  | arith T =>
    simp [synthesized_at, Value.leaves, Layout.leaf_types, Value.has_layout, List.range_succ]
  | aggregate fs =>
    have hl : (List.zipWith static_cast (Layout.aggregate fs).leaf_types
        ((List.range' k (Layout.aggregate fs).leaf_types.length).map (nth_cyclic vs h))).length =
        (Layout.aggregate fs).leaf_types.length := by simp
    obtain ⟨h1, h2⟩ := _to_struct_leaves (Layout.aggregate fs) _ hl
    refine ⟨?_, h2⟩
    simp only [synthesized_at]
    rw [h1, List.range'_eq_map_range, List.map_map]
    rfl

/-! ## Numeric conversion -/

theorem round_half_even_intCast (n : ℤ) : round_half_even (n : ℚ) = n := by
  simp [round_half_even]

theorem abs_round_half_even_sub (x : ℚ) : |(round_half_even x : ℚ) - x| ≤ 1 / 2 := by
  have h0 : (⌊x⌋ : ℚ) ≤ x := Int.floor_le x
  have h1 : x < ⌊x⌋ + 1 := Int.lt_floor_add_one x
  unfold round_half_even
  split_ifs <;> push_cast <;> rw [abs_le] <;> constructor <;> linarith

theorem float_quantum_pos (v : ℚ) : 0 < float_quantum v := by
  unfold float_quantum
  positivity

theorem to_float_of_representable (v : ℚ) (n : ℤ) (hv : v = n * float_quantum v)
    (hr : |v| < 2 ^ 128) : to_float v = Num.val v := by
  have hq := float_quantum_pos v
  have hdiv : v / float_quantum v = n := by
    rw [div_eq_iff hq.ne']; exact hv
  unfold to_float
  rw [hdiv, round_half_even_intCast, ← hv, if_pos hr]

theorem to_float_near (v r : ℚ) (h : to_float v = Num.val r) :
    |r - v| ≤ float_quantum v / 2 ∧ ∃ n : ℤ, r = n * float_quantum v := by
  have hq := float_quantum_pos v
  unfold to_float at h
  split_ifs at h
  simp only [Num.val.injEq] at h
  refine ⟨?_, round_half_even (v / float_quantum v), h.symm⟩
  have e : r - v = ((round_half_even (v / float_quantum v) : ℚ) - v / float_quantum v) *
      float_quantum v := by
    rw [← h, sub_mul, div_mul_cancel₀ v hq.ne']
  rw [e, abs_mul, abs_of_pos hq]
  have := abs_round_half_even_sub (v / float_quantum v)
  nlinarith

theorem trunc_abs_le (v : ℚ) : |(trunc v : ℚ)| ≤ |v| := by
  unfold trunc
  split_ifs with h
  · have h0 : (0 : ℤ) ≤ ⌊v⌋ := Int.le_floor.2 (by simpa using h)
    rw [abs_of_nonneg (by exact_mod_cast h0), abs_of_nonneg h]
    exact Int.floor_le v
  · have hv : v ≤ 0 := le_of_lt (not_le.1 h)
    have h0 : ⌈v⌉ ≤ (0 : ℤ) := Int.ceil_le.2 (by simpa using hv)
    rw [abs_of_nonpos (by exact_mod_cast h0), abs_of_nonpos hv]
    exact neg_le_neg (Int.le_ceil v)

theorem trunc_near (v : ℚ) : |v - (trunc v : ℚ)| < 1 := by
  unfold trunc
  split_ifs with h
  · rw [abs_lt]
    constructor <;> linarith [Int.floor_le v, Int.lt_floor_add_one v]
  · rw [abs_lt]
    constructor <;> linarith [Int.le_ceil v, Int.ceil_lt_add_one v]

theorem trunc_mem_range (lo hi : ℤ) (v : ℚ) (h1 : (lo : ℚ) ≤ v) (h2 : v ≤ (hi : ℚ)) :
    lo ≤ trunc v ∧ trunc v ≤ hi := by
  unfold trunc
  split_ifs with h
  · refine ⟨Int.le_floor.2 h1, ?_⟩
    exact_mod_cast (Int.floor_le v).trans h2
  · refine ⟨?_, Int.ceil_le.2 h2⟩
    exact_mod_cast h1.trans (Int.le_ceil v)

theorem static_cast_of_contains (T : Arith) (v : ℚ)
    (hT : ∃ w, T = Arith.signed w ∨ T = Arith.unsigned w) (hc : T.contains v) :
    static_cast T v = Num.val (trunc v) := by
  obtain ⟨w, rfl | rfl⟩ := hT
  · simp only [static_cast]
    rw [if_pos (trunc_mem_range _ _ v hc.1 hc.2)]
  · simp only [static_cast]
    rw [if_pos (trunc_mem_range _ _ v hc.1 hc.2)]

theorem trunc_examples : trunc (27 / 10) = 2 ∧ trunc (-27 / 10) = -2 ∧ trunc (1 / 2) = 0 := by
  refine ⟨?_, ?_, ?_⟩
  · simp only [trunc]
    norm_num [Int.floor_eq_iff]
  · simp only [trunc]
    norm_num [Int.ceil_eq_iff]
  · simp only [trunc]
    norm_num [Int.floor_eq_iff]

theorem float_quantum_example : float_quantum 16777217 = 2 := by
  have h : ((16777217 : ℕ) : ℚ) = 16777217 := by norm_num
  have hl : Nat.log 2 16777217 = 24 := by
    rw [Nat.log_eq_iff (by norm_num)]
    norm_num
  unfold float_quantum
  rw [abs_of_pos (by norm_num), ← h, Int.log_natCast, hl]
  norm_num

theorem to_float_example : to_float 16777217 = Num.val 16777216 := by
  have hf : ⌊(16777217 / 2 : ℚ)⌋ = 8388608 := by norm_num [Int.floor_eq_iff]
  have hr : round_half_even (16777217 / 2) = 8388608 := by
    unfold round_half_even
    rw [hf]
    norm_num
  unfold to_float
  rw [float_quantum_example, hr]
  norm_num

theorem static_cast_signed_natCast (w n : ℕ) (hn : (n : ℤ) ≤ 2 ^ (w - 1) - 1) :
    static_cast (Arith.signed w) (n : ℚ) = Num.val n := by
  have ht : trunc (n : ℚ) = n := by simp [trunc]
  have hlo : -(2 ^ (w - 1) : ℤ) ≤ n := by
    have : (0 : ℤ) ≤ 2 ^ (w - 1) := by positivity
    omega
  simp only [static_cast, ht, Arith.lo, Arith.hi]
  rw [if_pos ⟨hlo, hn⟩]
  simp

theorem leaf_count_leaf_types (S : Layout) : leaf_count S S.leaf_types = S.leaf_types.length := by
  cases S <;> rfl

/-! ## The claims -/

/-- C1, field-order determinism: on a freshly constructed cyclic stream over a non-empty
`vs`, `next<S, T1..Tn>` for a layout `S` whose leaf fields have the types `T1..Tn` in
declaration order returns a value of layout `S` whose `j`-th leaf field is `vs[j mod |vs|]`
converted to `Tj`; for a struct of `n` arithmetic fields it is exactly the struct
`{static_cast<T1>(vs[0 mod |vs|]), ..., static_cast<Tn>(vs[(n-1) mod |vs|])}`. -/
theorem field_order_determinism (vs : List ℚ) (h : vs ≠ []) (S : Layout) (Ts : List Arith)
    (hS : S.leaf_types = Ts) :
    ∃ g r g1, vectorized_generator.new vs = some g ∧
      DataGenerator.next S Ts { _it := g } = some (r, g1) ∧
      r.has_layout S ∧
      r.leaves = List.zipWith static_cast Ts ((List.range Ts.length).map (nth_cyclic vs h)) ∧
      (S = Layout.aggregate (Ts.map Layout.arith) →
        r = Value.aggregate (List.zipWith (fun T x => Value.arith (static_cast T x)) Ts
              ((List.range Ts.length).map (nth_cyclic vs h)))) := by
  refine ⟨_, synthesized_at S Ts vs h 0, _, vectorized_generator.new_eq vs h,
    DataGenerator.next_at_pull S Ts vs h 0, ?_, ?_, ?_⟩
  · rw [← hS]; exact (synthesized_at_leaves S vs h 0).2
  · rw [← hS, (synthesized_at_leaves S vs h 0).1]
    simp
  · intro hflat
    rw [hflat]
    simp only [synthesized_at]
    rw [_to_struct_flat Ts _ (by simp), List.map_zipWith, List.range_eq_range']

/-- Witness of C1: for three `int` fields and the sequence `[7, 8, 9, 10]` the result is
`{a = 7, b = 8, c = 9}`. -/
theorem field_order_determinism_witness :
    ([7, 8, 9, 10] : List ℚ) ≠ [] ∧
      (Layout.aggregate [.arith (.signed 32), .arith (.signed 32), .arith (.signed 32)]).leaf_types
        = [.signed 32, .signed 32, .signed 32] ∧
      ∃ g g1, vectorized_generator.new [7, 8, 9, 10] = some g ∧
        DataGenerator.next
            (Layout.aggregate [.arith (.signed 32), .arith (.signed 32), .arith (.signed 32)])
            [.signed 32, .signed 32, .signed 32] { _it := g } =
          some (Value.aggregate [.arith (.val 7), .arith (.val 8), .arith (.val 9)], g1) := by
  refine ⟨by decide, rfl, ?_⟩
  obtain ⟨g, r, g1, hg, hn, -, -, hflat⟩ :=
    field_order_determinism [7, 8, 9, 10] (by decide)
      (Layout.aggregate [.arith (.signed 32), .arith (.signed 32), .arith (.signed 32)])
      [.signed 32, .signed 32, .signed 32] rfl
  refine ⟨g, g1, hg, ?_⟩
  rw [hn, hflat rfl]
  have e7 := static_cast_signed_natCast 32 7 (by norm_num)
  have e8 := static_cast_signed_natCast 32 8 (by norm_num)
  have e9 := static_cast_signed_natCast 32 9 (by norm_num)
  simp only [Nat.cast_ofNat] at e7 e8 e9
  simp [List.range_succ, nth_cyclic, e7, e8, e9]

/-- C2, pull count of a single value: for every stream, every stream state and every shape
description `<U, Args...>`, the stream after `next<U, Args...>()` is the stream incremented
`leaf_count` times (and the call returns exactly when these increments succeed), where
`leaf_count` is 1 for an arithmetic `U` and the number `n` of listed leaf types for an
aggregate; on a cyclic stream over a non-empty sequence the call returns in every state
reached by pulls. -/
theorem pull_count_single :
    (∀ (σ : Type) [Gen σ] (U : Layout) (Args : List Arith) (self : DataGenerator σ),
        (self.next U Args).map (fun r => r.2._it) =
          Gen.advance (leaf_count U Args) self._it) ∧
      (∀ (T : Arith) (Args : List Arith), leaf_count (.arith T) Args = 1) ∧
      (∀ (fs : List Layout) (Args : List Arith), leaf_count (.aggregate fs) Args = Args.length) ∧
      (∀ (v : ℚ) (vs : List ℚ) (k : ℕ), ∃ g gk, vectorized_generator.new (v :: vs) = some g ∧
        Gen.advance k g = some gk ∧
        ∀ (U : Layout) (Args : List Arith), ∃ r gk1,
          DataGenerator.next U Args { _it := gk } = some (r, gk1) ∧
          Gen.advance (leaf_count U Args) gk = some gk1._it) := by
  refine ⟨fun _ _ U Args self => DataGenerator.next_state U Args self, fun _ _ => rfl,
    fun _ _ => rfl, fun v vs k => ?_⟩
  refine ⟨_, _, vectorized_generator.new_eq (v :: vs) (List.cons_ne_nil v vs),
    vectorized_generator.advance_at_pull (v :: vs) _ k 0, fun U Args => ?_⟩
  exact ⟨_, _, DataGenerator.next_at_pull U Args (v :: vs) _ (0 + k),
    vectorized_generator.advance_at_pull (v :: vs) _ (leaf_count U Args) (0 + k)⟩

/-- C3, cyclic wraparound: a `vectorized_generator` constructed from a non-empty sequence
`vs` exists, and for every `m` its first `m` pulls (read the current value, then increment)
succeed and yield `vs[0 mod n], vs[1 mod n], ..., vs[(m-1) mod n]` in this order, so that
pull `k` yields `vs[k mod n]`. -/
theorem cyclic_wraparound (vs : List ℚ) (h : vs ≠ []) :
    ∃ g, vectorized_generator.new vs = some g ∧
      ∀ m : ℕ, ∃ g1, Gen.pulls m g = some ((List.range m).map (nth_cyclic vs h), g1) := by
  refine ⟨_, vectorized_generator.new_eq vs h,
    fun m => ⟨vectorized_generator.at_pull vs h (0 + m), ?_⟩⟩
  rw [vectorized_generator.pulls_at_pull, List.range_eq_range']

/-- Witness of C3: the stream built from `[1, 2]` and pulled 5 times yields
`1, 2, 1, 2, 1`. -/
theorem cyclic_wraparound_witness :
    ([1, 2] : List ℚ) ≠ [] ∧
      ∃ g, vectorized_generator.new [1, 2] = some g ∧
        ∃ g1, Gen.pulls 5 g = some ([1, 2, 1, 2, 1], g1) := by
  refine ⟨by decide, ?_⟩
  obtain ⟨g, hg, hp⟩ := cyclic_wraparound [1, 2] (by decide)
  obtain ⟨g1, h1⟩ := hp 5
  exact ⟨g, hg, g1, h1⟩

/-- C4, sequence fill order: `fill_vector` for an arithmetic element type `T` on a freshly
constructed cyclic stream over a non-empty `vs` returns, and leaves slot `i` of the vector
holding `vs[i mod |vs|]` converted to `T`, for every `i` below the length of the vector. -/
theorem sequence_fill_order (vs : List ℚ) (h : vs ≠ []) (T : Arith) (Args : List Arith)
    (vec : List Value) :
    ∃ g g1, vectorized_generator.new vs = some g ∧
      DataGenerator.fill_vector (.arith T) Args vec { _it := g } =
        some ((List.range vec.length).map
          (fun i => Value.arith (static_cast T (nth_cyclic vs h i))), g1) := by
  refine ⟨vectorized_generator.at_pull vs h 0,
    DataGenerator.mk (vectorized_generator.at_pull vs h
      (0 + vec.length * leaf_count (.arith T) Args)),
    vectorized_generator.new_eq vs h, ?_⟩
  rw [DataGenerator.fill_vector_eq_nexts, DataGenerator.nexts_at_pull, List.range_eq_range']
  simp [synthesized_at, leaf_count]

/-- Witness of C4: a 4-slot `int` vector filled from `[10, 20, 30]` becomes
`[10, 20, 30, 10]`. -/
theorem sequence_fill_order_witness :
    ([10, 20, 30] : List ℚ) ≠ [] ∧
      ∃ g g1, vectorized_generator.new [10, 20, 30] = some g ∧
        DataGenerator.fill_vector (.arith (.signed 32)) []
            [.arith (.val 0), .arith (.val 0), .arith (.val 0), .arith (.val 0)] { _it := g } =
          some ([.arith (.val 10), .arith (.val 20), .arith (.val 30), .arith (.val 10)],
            g1) := by
  refine ⟨by decide, ?_⟩
  obtain ⟨g, g1, hg, hf⟩ :=
    sequence_fill_order [10, 20, 30] (by decide) (.signed 32) []
      [.arith (.val 0), .arith (.val 0), .arith (.val 0), .arith (.val 0)]
  refine ⟨g, g1, hg, ?_⟩
  rw [hf]
  have e10 := static_cast_signed_natCast 32 10 (by norm_num)
  have e20 := static_cast_signed_natCast 32 20 (by norm_num)
  have e30 := static_cast_signed_natCast 32 30 (by norm_num)
  simp only [Nat.cast_ofNat] at e10 e20 e30
  simp [List.range_succ, nth_cyclic, e10, e20, e30]

/-- C5, `fill_vector` is repeated synthesis: for every stream, state, shape and vector,
`fill_vector` gives the same vector and the same stream (or fails alike) as performing, for
`i = 0 .. L-1` in order, one `next` call whose result is stored in slot `i`; the final
vector is the list of the results of `L` successive `next` calls. -/
theorem fill_vector_is_repeated_next (σ : Type) [Gen σ] (U : Layout) (Args : List Arith)
    (vec : List Value) (self : DataGenerator σ) :
    self.fill_vector U Args vec = fill_spec U Args vec self ∧
      self.fill_vector U Args vec = DataGenerator.nexts U Args vec.length self := by
  refine ⟨?_, DataGenerator.fill_vector_eq_nexts U Args vec self⟩
  rw [fill_spec, List.range_eq_range', DataGenerator.fill_vector]
  exact (foldlM_range_eq_fill_loop U Args vec.length 0 vec self (Nat.zero_add _)).symm

/-- C6, pull count of a sequence fill: for every stream, state, shape description and
vector of length `L`, the stream after `fill_vector` is the stream incremented
`L * leaf_count` times (and the fill returns exactly when these increments succeed); on a
freshly constructed cyclic stream over a non-empty `vs`, with an element layout whose leaf
fields have the types `T1..Tn`, every slot has the element layout and leaf field `j` of
slot `i` is `vs[(i * n + j) mod |vs|]` converted to `Tj`. -/
theorem fill_pull_count :
    (∀ (σ : Type) [Gen σ] (U : Layout) (Args : List Arith) (vec : List Value)
        (self : DataGenerator σ),
        (self.fill_vector U Args vec).map (fun r => r.2._it) =
          Gen.advance (vec.length * leaf_count U Args) self._it) ∧
      (∀ (vs : List ℚ) (h : vs ≠ []) (S : Layout) (Ts : List Arith), S.leaf_types = Ts →
        ∀ vec : List Value, ∃ g out g1, vectorized_generator.new vs = some g ∧
          DataGenerator.fill_vector S Ts vec { _it := g } = some (out, g1) ∧
          (∀ r ∈ out, Value.has_layout r S) ∧
          out.map Value.leaves =
            (List.range vec.length).map fun i =>
              List.zipWith static_cast Ts
                ((List.range Ts.length).map fun j => nth_cyclic vs h (i * Ts.length + j))) := by
  refine ⟨?_, ?_⟩
  · intro σ _ U Args vec self
    rw [DataGenerator.fill_vector_eq_nexts, DataGenerator.nexts_state]
  · intro vs h S Ts hS vec
    subst hS
    have hf := DataGenerator.nexts_at_pull S S.leaf_types vs h vec.length 0
    rw [← DataGenerator.fill_vector_eq_nexts] at hf
    refine ⟨vectorized_generator.at_pull vs h 0, _, _, vectorized_generator.new_eq vs h, hf,
      ?_, ?_⟩
    · intro r hr
      simp only [List.mem_map] at hr
      obtain ⟨i, -, hi⟩ := hr
      rw [← hi]
      exact (synthesized_at_leaves S vs h _).2
    · rw [List.map_map, ← List.range_eq_range']
      apply List.map_congr_left
      intro i _
      simp only [Function.comp, (synthesized_at_leaves S vs h _).1, leaf_count_leaf_types,
        Nat.zero_add]

/-- Witness of C6: two slots of a struct of two `double` fields filled from `[1, 2, 3]`
become `{1, 2}` and `{3, 1}`. -/
theorem fill_pull_count_witness :
    ([1, 2, 3] : List ℚ) ≠ [] ∧
      (Layout.aggregate [.arith .double, .arith .double]).leaf_types = [.double, .double] ∧
      ∃ g out g1, vectorized_generator.new [1, 2, 3] = some g ∧
        DataGenerator.fill_vector (Layout.aggregate [.arith .double, .arith .double])
            [.double, .double] [.arith (.val 0), .arith (.val 0)] { _it := g } =
          some (out, g1) ∧
        out.map Value.leaves = [[.val 1, .val 2], [.val 3, .val 1]] := by
  refine ⟨by decide, rfl, ?_⟩
  obtain ⟨g, out, g1, hg, hf, -, hl⟩ :=
    fill_pull_count.2 [1, 2, 3] (by decide)
      (Layout.aggregate [.arith .double, .arith .double]) [.double, .double] rfl
      [.arith (.val 0), .arith (.val 0)]
  refine ⟨g, out, g1, hg, hf, ?_⟩
  rw [hl]
  simp [List.range_succ, nth_cyclic, static_cast]

/-- C7, nested aggregate recursion: from a stream whose current value is `v0` and whose
next values are `v1` and `v2`, `next` for the struct of one leaf field followed by a nested
struct of two leaf fields returns `{leaf = v0, nested = {x = v1, y = v2}}`, each value
converted to the type of its field, and leaves the stream after the third increment. -/
theorem nested_aggregate_recursion (σ : Type) [Gen σ] (T0 T1 T2 : Arith) (g g1 g2 g3 : σ)
    (h1 : Gen.incr g = some g1) (h2 : Gen.incr g1 = some g2) (h3 : Gen.incr g2 = some g3) :
    DataGenerator.next
        (Layout.aggregate [.arith T0, .aggregate [.arith T1, .arith T2]]) [T0, T1, T2]
        { _it := g } =
      some (Value.aggregate
          [.arith (static_cast T0 (Gen.deref g)),
            .aggregate [.arith (static_cast T1 (Gen.deref g1)),
              .arith (static_cast T2 (Gen.deref g2))]],
        { _it := g3 }) := by
  have hp : Gen.pulls 3 g = some ([Gen.deref g, Gen.deref g1, Gen.deref g2], g3) := by
    simp [Gen.pulls, Gen.pull, h1, h2, h3]
  have hg := generate_struct_eq
    (Layout.aggregate [.arith T0, .aggregate [.arith T1, .arith T2]]) [T0, T1, T2] g
  rw [show [T0, T1, T2].length = 3 from rfl, hp] at hg
  simp only [DataGenerator.next, hg]
  rfl

/-- Witness of C7: on the cyclic stream over `[5, 6, 7]` the nested struct of `double`
fields is `{5, {6, 7}}`. -/
theorem nested_aggregate_recursion_witness :
    Gen.incr (vectorized_generator.at_pull [5, 6, 7] (by decide) 0) =
        some (vectorized_generator.at_pull [5, 6, 7] (by decide) 1) ∧
      Gen.incr (vectorized_generator.at_pull [5, 6, 7] (by decide) 1) =
        some (vectorized_generator.at_pull [5, 6, 7] (by decide) 2) ∧
      Gen.incr (vectorized_generator.at_pull [5, 6, 7] (by decide) 2) =
        some (vectorized_generator.at_pull [5, 6, 7] (by decide) 3) ∧
      DataGenerator.next
          (Layout.aggregate [.arith .double, .aggregate [.arith .double, .arith .double]])
          [.double, .double, .double]
          { _it := vectorized_generator.at_pull [5, 6, 7] (by decide) 0 } =
        some (Value.aggregate [.arith (.val 5), .aggregate [.arith (.val 6), .arith (.val 7)]],
          { _it := vectorized_generator.at_pull [5, 6, 7] (by decide) 3 }) :=
  ⟨vectorized_generator.incr_at_pull _ _ 0, vectorized_generator.incr_at_pull _ _ 1,
    vectorized_generator.incr_at_pull _ _ 2,
    nested_aggregate_recursion vectorized_generator .double .double .double _ _ _ _
      (vectorized_generator.incr_at_pull _ _ 0) (vectorized_generator.incr_at_pull _ _ 1)
      (vectorized_generator.incr_at_pull _ _ 2)⟩

/-- C8 as amended, leaf conversion: `next<T>` for an arithmetic `T` returns the current value
`v` of the stream converted by `static_cast<T>` and nothing else, after one increment.  The
conversion gives `v` itself for `double` and `long double`; for `float` it gives `v` itself
when `v` is a binary32 value and otherwise a binary32 value within half a spacing of `v`;
for `bool` it gives 0 for `v = 0` and 1 for every other `v`; for every other integral `T`
whose range contains `v` it gives `v` truncated toward zero (the integer `z` with
`|z| ≤ |v|` and `|v - z| < 1`): 2.7 gives 2 and -2.7 gives -2. -/
theorem leaf_conversion :
    (∀ (σ : Type) [Gen σ] (T : Arith) (Args : List Arith) (self : DataGenerator σ),
        self.next (.arith T) Args =
          (Gen.incr self._it).map fun it1 =>
            (Value.arith (static_cast T (Gen.deref self._it)), DataGenerator.mk it1)) ∧
      (∀ v : ℚ, static_cast .double v = .val v ∧ static_cast .long_double v = .val v) ∧
      (∀ (v : ℚ) (n : ℤ), v = n * float_quantum v → |v| < 2 ^ 128 →
        static_cast .float v = .val v) ∧
      (∀ v r : ℚ, static_cast .float v = .val r →
        |r - v| ≤ float_quantum v / 2 ∧ ∃ n : ℤ, r = n * float_quantum v) ∧
      (∀ v : ℚ, static_cast .bool v = .val (if v = 0 then 0 else 1)) ∧
      (∀ (T : Arith) (v : ℚ), (∃ w, T = Arith.signed w ∨ T = Arith.unsigned w) →
        T.contains v →
        ∃ z : ℤ, static_cast T v = .val z ∧ |(z : ℚ)| ≤ |v| ∧ |v - z| < 1) ∧
      static_cast (.signed 32) (27 / 10) = .val 2 ∧
      static_cast (.signed 32) (-27 / 10) = .val (-2) := by
  refine ⟨fun _ _ _ _ _ => rfl, fun _ => ⟨rfl, rfl⟩, ?_, ?_, fun _ => rfl, ?_, ?_, ?_⟩
  · intro v n hv hr
    exact to_float_of_representable v n hv hr
  · intro v r h
    exact to_float_near v r h
  · intro T v hT hc
    exact ⟨trunc v, static_cast_of_contains T v hT hc, trunc_abs_le v, trunc_near v⟩
  · have h := static_cast_of_contains (.signed 32) (27 / 10) ⟨32, Or.inl rfl⟩
      (by constructor <;> norm_num [Arith.lo, Arith.hi])
    rw [h, trunc_examples.1]
    norm_num
  · have h := static_cast_of_contains (.signed 32) (-27 / 10) ⟨32, Or.inl rfl⟩
      (by constructor <;> norm_num [Arith.lo, Arith.hi])
    rw [h, trunc_examples.2.1]
    norm_num

/-- Witness of C8 as amended: the range of the 32-bit signed integer type contains 2.7,
and the conversion of 2.7 is an integer no larger in magnitude and less than 1 away; the
value 3 is a binary32 value and converts to itself. -/
theorem leaf_conversion_witness :
    ((∃ w, Arith.signed 32 = Arith.signed w ∨ Arith.signed 32 = Arith.unsigned w) ∧
        (Arith.signed 32).contains (27 / 10) ∧
        ∃ z : ℤ, static_cast (.signed 32) (27 / 10) = .val z ∧
          |(z : ℚ)| ≤ |(27 / 10 : ℚ)| ∧ |(27 / 10 : ℚ) - z| < 1) ∧
      ((3 : ℚ) = (12582912 : ℤ) * float_quantum 3 ∧ |(3 : ℚ)| < 2 ^ 128 ∧
        static_cast .float 3 = .val 3) := by
  have hc : (Arith.signed 32).contains (27 / 10) := by
    constructor <;> norm_num [Arith.lo, Arith.hi]
  have hq : float_quantum 3 = 2 ^ (-22 : ℤ) := by
    have h : ((3 : ℕ) : ℚ) = 3 := by norm_num
    have hl : Nat.log 2 3 = 1 := by
      rw [Nat.log_eq_iff (by norm_num)]
      norm_num
    unfold float_quantum
    rw [abs_of_pos (by norm_num), ← h, Int.log_natCast, hl]
    norm_num
  have h3 : (3 : ℚ) = (12582912 : ℤ) * float_quantum 3 := by
    rw [hq]
    norm_num
  have hr : |(3 : ℚ)| < 2 ^ 128 := by
    rw [abs_of_pos (by norm_num)]
    norm_num
  exact ⟨⟨⟨32, Or.inl rfl⟩, hc, leaf_conversion.2.2.2.2.2.1 _ _ ⟨32, Or.inl rfl⟩ hc⟩,
    h3, hr, leaf_conversion.2.2.1 3 12582912 h3 hr⟩

/-- Counterexample to C8 as stated: `bool` is an integral type whose range contains 0.5, and
`next<bool>` on a stream whose current value is 0.5 returns `true` (1), not 0.5 truncated
toward zero (0); `float` is a floating type, and `next<float>` on a stream whose current
value is 16777217 returns 16777216, not the value itself. -/
theorem leaf_conversion_counterexample :
    (Arith.bool.is_integral = true ∧ Arith.bool.contains (1 / 2) ∧
        ∃ g g1, vectorized_generator.new [1 / 2] = some g ∧ Gen.deref g = 1 / 2 ∧
          DataGenerator.next (.arith .bool) [] (DataGenerator.mk g) =
            some (.arith (.val 1), g1) ∧
          Num.val 1 ≠ Num.val (trunc (1 / 2))) ∧
      (Arith.float.is_floating = true ∧
        ∃ g g1, vectorized_generator.new [16777217] = some g ∧ Gen.deref g = 16777217 ∧
          DataGenerator.next (.arith .float) [] (DataGenerator.mk g) =
            some (.arith (.val 16777216), g1) ∧
          Num.val 16777216 ≠ Num.val 16777217) := by
  refine ⟨⟨rfl, by constructor <;> norm_num [Arith.lo, Arith.hi], ?_⟩, rfl, ?_⟩
  · have hn := DataGenerator.next_at_pull (.arith .bool) [] [1 / 2] (List.cons_ne_nil _ _) 0
    have hv : synthesized_at (.arith .bool) [] [1 / 2] (List.cons_ne_nil _ _) 0 =
        .arith (.val 1) := by
      simp [synthesized_at, static_cast, nth_cyclic]
    rw [hv] at hn
    refine ⟨_, _, vectorized_generator.new_eq [1 / 2] (List.cons_ne_nil _ _), rfl, hn, ?_⟩
    rw [trunc_examples.2.2]
    simp
  · have hn := DataGenerator.next_at_pull (.arith .float) [] [16777217] (List.cons_ne_nil _ _) 0
    have hv : synthesized_at (.arith .float) [] [16777217] (List.cons_ne_nil _ _) 0 =
        .arith (.val 16777216) := by
      simp only [synthesized_at, static_cast]
      rw [show nth_cyclic [16777217] (List.cons_ne_nil _ _) 0 = 16777217 from rfl,
        to_float_example]
    rw [hv] at hn
    refine ⟨_, _, vectorized_generator.new_eq [16777217] (List.cons_ne_nil _ _), rfl, hn, ?_⟩
    simp

/-- C9, `fill_vector` never resizes its container: for every stream, state, shape and
vector, a fill that returns returns a vector of the length it was given, and it returns
exactly when the stream can be incremented `L * leaf_count` times; an empty vector stays
empty and leaves the stream untouched; on a cyclic stream over a non-empty sequence the
fill returns in every state reached by pulls. -/
theorem fill_vector_keeps_length :
    (∀ (σ : Type) [Gen σ] (U : Layout) (Args : List Arith) (vec : List Value)
        (self : DataGenerator σ),
        (self.fill_vector U Args vec).map (fun r => r.1.length) =
          (Gen.advance (vec.length * leaf_count U Args) self._it).map fun _ => vec.length) ∧
      (∀ (σ : Type) [Gen σ] (U : Layout) (Args : List Arith) (self : DataGenerator σ),
        self.fill_vector U Args [] = some ([], self)) ∧
      (∀ (v : ℚ) (vs : List ℚ) (k : ℕ) (U : Layout) (Args : List Arith) (vec : List Value),
        ∃ g gk out g1, vectorized_generator.new (v :: vs) = some g ∧
          Gen.advance k g = some gk ∧
          DataGenerator.fill_vector U Args vec { _it := gk } = some (out, g1) ∧
          out.length = vec.length) := by
  refine ⟨?_, fun _ _ _ _ _ => rfl, ?_⟩
  · intro σ _ U Args vec self
    rw [← DataGenerator.nexts_state, DataGenerator.fill_vector_eq_nexts]
    cases hn : DataGenerator.nexts U Args vec.length self with
    | none => rfl
    | some r =>
      simp only [Option.map_some', Option.some.injEq]
      exact DataGenerator.nexts_length U Args vec.length self r.1 r.2 hn
  · intro v vs k U Args vec
    have hf := DataGenerator.nexts_at_pull U Args (v :: vs) (List.cons_ne_nil v vs) vec.length
      (0 + k)
    rw [← DataGenerator.fill_vector_eq_nexts] at hf
    exact ⟨_, _, _, _, vectorized_generator.new_eq (v :: vs) (List.cons_ne_nil v vs),
      vectorized_generator.advance_at_pull (v :: vs) _ k 0, hf, by simp⟩

/-- C10, an empty predefined sequence is rejected at construction: the constructor of
`vectorized_generator` yields no generator for the empty vector, because the value that the
construction of its iterator fetches is read outside the data; for every non-empty vector
the constructor yields a generator. -/
theorem empty_sequence_fails_at_construction :
    vectorized_generator.new [] = none ∧
      make_generator_iterator (vectorized_generator_impl.new []) = none ∧
      (vectorized_generator_impl.new []).operator_call = none ∧
      ∀ (v : ℚ) (vs : List ℚ), ∃ g, vectorized_generator.new (v :: vs) = some g :=
  ⟨rfl, rfl, rfl, fun v vs => ⟨_, vectorized_generator.new_eq (v :: vs) (List.cons_ne_nil v vs)⟩⟩

/-! ## Further lemmas on the cyclic stream -/

theorem vectorized_generator_impl.operator_call_eq_access (g : vectorized_generator_impl) :
    g.operator_call =
      (g._generator[g.access_index]?).map fun x => (x, { g with _vec_it := g.access_index + 1 }) := by
  unfold vectorized_generator_impl.operator_call vectorized_generator_impl.access_index
  split_ifs <;> rfl

theorem nth_cyclic_add_mul (vs : List ℚ) (h : vs ≠ []) (k m : ℕ) :
    nth_cyclic vs h (k + m * vs.length) = nth_cyclic vs h k := by
  have h1 := nth_cyclic_getElem_opt vs h (k + m * vs.length)
  have h2 := nth_cyclic_getElem_opt vs h k
  rw [Nat.add_mul_mod_self_right, h2] at h1
  exact (Option.some.inj h1).symm

theorem vectorized_generator.at_pull_add_mul (vs : List ℚ) (h : vs ≠ []) (k m : ℕ) :
    vectorized_generator.at_pull vs h (k + m * vs.length) = vectorized_generator.at_pull vs h k := by
  unfold vectorized_generator.at_pull
  rw [nth_cyclic_add_mul, Nat.add_mul_mod_self_right]

theorem vectorized_generator.at_pull_cursor (vs : List ℚ) (h : vs ≠ []) (k : ℕ) :
    1 ≤ (vectorized_generator.at_pull vs h k)._it.m_g._vec_it ∧
      (vectorized_generator.at_pull vs h k)._it.m_g._vec_it ≤ vs.length ∧
      vs[(vectorized_generator.at_pull vs h k)._it.m_g._vec_it - 1]? =
        some (Gen.deref (vectorized_generator.at_pull vs h k)) := by
  have hn : 0 < vs.length := List.length_pos.2 h
  have hlt : k % vs.length < vs.length := Nat.mod_lt k hn
  refine ⟨?_, ?_, ?_⟩
  · simp [vectorized_generator.at_pull]
  · simp only [vectorized_generator.at_pull]; omega
  · simp only [vectorized_generator.at_pull, Nat.add_sub_cancel]
    exact nth_cyclic_getElem_opt vs h k

theorem vectorized_generator.at_pull_access (vs : List ℚ) (h : vs ≠ []) (k : ℕ) :
    (vectorized_generator.at_pull vs h k)._it.m_g.access_index < vs.length := by
  have hn : 0 < vs.length := List.length_pos.2 h
  have hlt : k % vs.length < vs.length := Nat.mod_lt k hn
  simp only [vectorized_generator.at_pull, vectorized_generator_impl.access_index]
  split_ifs <;> omega

/-! ## Further lemmas on synthesis -/

section synthesis
variable {σ : Type} [Gen σ]

theorem Gen.pulls_length (k : ℕ) (s : σ) (r : List ℚ × σ) (h : Gen.pulls k s = some r) :
    r.1.length = k := by
  induction k generalizing s r with
  | zero =>
    simp only [Gen.pulls, Option.some.injEq] at h
    rw [← h]; rfl
  | succ k ih =>
    simp only [Gen.pulls] at h
    cases hp : Gen.pull s with
    | none => simp [hp] at h
    | some a =>
      rw [hp, Option.some_bind] at h
      cases hq : Gen.pulls k a.2 with
      | none => simp [hq] at h
      | some b =>
        rw [hq] at h
        simp only [Option.map_some', Option.some.injEq] at h
        rw [← h, List.length_cons, ih a.2 b hq]

theorem leaves_fields_arith (xs : List Num) : Value.leaves_fields (xs.map Value.arith) = xs := by
  induction xs with
  | nil => rfl
  | cons x rest ih => simp [Value.leaves_fields, Value.leaves, ih]

theorem DataGenerator.next_each_eq_pulls (Ts : List Arith) (self : DataGenerator σ) :
    DataGenerator.next_each Ts self =
      (Gen.pulls Ts.length self._it).map fun r =>
        ((List.zipWith static_cast Ts r.1).map Value.arith, DataGenerator.mk r.2) := by
  induction Ts generalizing self with
  | nil => rfl
  | cons T rest ih =>
    simp only [DataGenerator.next_each, DataGenerator.next, List.length_cons, Gen.pulls,
      Gen.pull]
    cases Gen.incr self._it with
    | none => rfl
    | some it1 =>
      simp only [Option.map_some', Option.some_bind, ih]
      cases Gen.pulls rest.length it1 <;> simp

theorem DataGenerator.next_aggregate_eq (fs : List Layout) (Args : List Arith)
    (self : DataGenerator σ) :
    self.next (.aggregate fs) Args =
      (Gen.pulls Args.length self._it).map fun r =>
        (_to_struct (.aggregate fs) (List.zipWith static_cast Args r.1), DataGenerator.mk r.2) := by
  simp only [DataGenerator.next, generate_struct_eq]
  cases Gen.pulls Args.length self._it <;> rfl

theorem zipWith_static_cast_length (Args : List Arith) (k : ℕ) (s : σ) (r : List ℚ × σ)
    (h : Gen.pulls k s = some r) (hk : k = Args.length) :
    (List.zipWith static_cast Args r.1).length = Args.length := by
  rw [List.length_zipWith, Gen.pulls_length k s r h, hk, Nat.min_self]

end synthesis

/-! ## Counting increments, sequences of calls, the random stream -/

theorem counted_advance {σ : Type} [Gen σ] (k : ℕ) (c : counted σ) :
    Gen.advance k c =
      (Gen.advance k c.stream).map fun s => counted.mk s (c.increments + k) := by
  induction k generalizing c with
  | zero => rfl
  | succ k ih =>
    simp only [Gen.advance]
    show ((Gen.incr c.stream).map fun s => counted.mk s (c.increments + 1)).bind
        (Gen.advance k) = _
    cases Gen.incr c.stream with
    | none => rfl
    | some s1 =>
      simp only [Option.map_some', Option.some_bind, ih]
      cases Gen.advance k s1 with
      | none => rfl
      | some s2 =>
        simp only [Option.map_some', Option.some.injEq, counted.mk.injEq, true_and]
        omega

theorem DataGenerator.call_at_pull (c : Call) (vs : List ℚ) (h : vs ≠ []) (k : ℕ) :
    ∃ r k1, DataGenerator.call c (DataGenerator.mk (vectorized_generator.at_pull vs h k)) =
      some (r, DataGenerator.mk (vectorized_generator.at_pull vs h k1)) := by
  cases c with
  | next U Args =>
    exact ⟨_, _, by simp only [DataGenerator.call, DataGenerator.next_at_pull]; rfl⟩
  | fill_vector UDT Args vec =>
    exact ⟨_, _, by
      simp only [DataGenerator.call, DataGenerator.fill_vector_eq_nexts,
        DataGenerator.nexts_at_pull]; rfl⟩

theorem DataGenerator.run_at_pull (calls : List Call) (vs : List ℚ) (h : vs ≠ []) (k : ℕ) :
    ∃ rs k1, DataGenerator.run calls (DataGenerator.mk (vectorized_generator.at_pull vs h k)) =
        some (rs, DataGenerator.mk (vectorized_generator.at_pull vs h k1)) ∧
      rs.length = calls.length := by
  induction calls generalizing k with
  | nil => exact ⟨[], k, rfl, rfl⟩
  | cons c rest ih =>
    obtain ⟨r, k1, hc⟩ := DataGenerator.call_at_pull c vs h k
    obtain ⟨rs, k2, hr, hl⟩ := ih k1
    refine ⟨r :: rs, k2, ?_, by simp [hl]⟩
    simp only [DataGenerator.run, hc, Option.some_bind, hr, Option.map_some']

theorem uniform_real_distribution.draw_in_range (d : uniform_real_distribution)
    (eng : mt19937) (h : d._min ≤ d._max) :
    d._min ≤ (d.operator_call eng).1 ∧ (d.operator_call eng).1 ≤ d._max := by
  have hw : eng.words eng.pos % 2 ^ 32 ≤ 2 ^ 32 - 1 := by
    have := Nat.mod_lt (eng.words eng.pos) (by norm_num : 0 < 2 ^ 32)
    omega
  have hw1 : ((eng.words eng.pos % 2 ^ 32 : ℕ) : ℚ) ≤ 2 ^ 32 - 1 := by
    have hc : ((eng.words eng.pos % 2 ^ 32 : ℕ) : ℚ) ≤ ((2 ^ 32 - 1 : ℕ) : ℚ) :=
      Nat.cast_le.2 hw
    exact le_trans hc (by norm_num)
  have hw0 : (0 : ℚ) ≤ ((eng.words eng.pos % 2 ^ 32 : ℕ) : ℚ) := Nat.cast_nonneg _
  have hu0 : (0 : ℚ) ≤ ((eng.words eng.pos % 2 ^ 32 : ℕ) : ℚ) / (2 ^ 32 - 1) :=
    div_nonneg hw0 (by norm_num)
  have hu1 : ((eng.words eng.pos % 2 ^ 32 : ℕ) : ℚ) / (2 ^ 32 - 1) ≤ 1 := by
    rw [div_le_one (by norm_num)]
    exact hw1
  have hd : (0 : ℚ) ≤ d._max - d._min := sub_nonneg.2 h
  simp only [uniform_real_distribution.operator_call, mt19937.operator_call]
  constructor
  · nlinarith [mul_nonneg hu0 hd]
  · nlinarith [mul_le_mul_of_nonneg_right hu1 hd]

theorem random_generator.advance_in_range (min max : ℚ) (h : min ≤ max) (k : ℕ)
    (g : random_generator)
    (hg : g._it.m_g._generator = { _min := min, _max := max }) :
    ∃ gk, Gen.advance k g = some gk ∧
      gk._it.m_g._generator = { _min := min, _max := max } ∧
      (0 < k → min ≤ Gen.deref gk ∧ Gen.deref gk ≤ max) := by
  induction k generalizing g with
  | zero => exact ⟨g, rfl, hg, fun h0 => absurd h0 (Nat.lt_irrefl 0)⟩
  | succ k ih =>
    have hr := uniform_real_distribution.draw_in_range g._it.m_g._generator g._it.m_g._eng
      (by rw [hg]; exact h)
    rw [hg] at hr
    have hi : Gen.incr g = some
        { _it := { m_g := g._it.m_g.operator_call.2, m_value := g._it.m_g.operator_call.1 } } :=
      rfl
    obtain ⟨gk, hk, hgen, hrange⟩ := ih
      { _it := { m_g := g._it.m_g.operator_call.2, m_value := g._it.m_g.operator_call.1 } } hg
    refine ⟨gk, by simp only [Gen.advance, hi, Option.some_bind, hk], hgen, fun _ => ?_⟩
    cases k with
    | zero =>
      simp only [Gen.advance, Option.some.injEq] at hk
      rw [← hk]
      show min ≤ (g._it.m_g._generator.operator_call g._it.m_g._eng).1 ∧
        (g._it.m_g._generator.operator_call g._it.m_g._eng).1 ≤ max
      rw [hg]
      exact hr
    | succ k => exact hrange (Nat.succ_pos k)

/-! ## The claims, continued -/

/-- C11, no failure mid-pull: in every state that a `vectorized_generator` constructed from
a non-empty `vs` reaches by `k` increments, the element that
`vectorized_generator_impl::operator()` reads has an index strictly below the length of the
sequence (as has the element read during construction), the call operator and the increment
return, and `next` and `fill_vector` return for every shape and every vector. -/
theorem no_failure_mid_pull (vs : List ℚ) (h : vs ≠ []) (k : ℕ) :
    ∃ g gk, vectorized_generator.new vs = some g ∧ Gen.advance k g = some gk ∧
      (vectorized_generator_impl.new vs).access_index < vs.length ∧
      gk._it.m_g._generator = vs ∧
      gk._it.m_g.access_index < gk._it.m_g._generator.length ∧
      gk._it.m_g.operator_call =
        (gk._it.m_g._generator[gk._it.m_g.access_index]?).map
          (fun x => (x, { gk._it.m_g with _vec_it := gk._it.m_g.access_index + 1 })) ∧
      (∃ x g1, gk._it.m_g.operator_call = some (x, g1)) ∧
      (∃ gk1, Gen.incr gk = some gk1) ∧
      (∀ (U : Layout) (Args : List Arith), ∃ r gk1,
        DataGenerator.next U Args { _it := gk } = some (r, gk1)) ∧
      (∀ (U : Layout) (Args : List Arith) (vec : List Value), ∃ out gk1,
        DataGenerator.fill_vector U Args vec { _it := gk } = some (out, gk1)) := by
  have hn : 0 < vs.length := List.length_pos.2 h
  have hacc := vectorized_generator.at_pull_access vs h (0 + k)
  have hcall := (vectorized_generator.at_pull vs h (0 + k))._it.m_g.operator_call_eq_access
  refine ⟨_, _, vectorized_generator.new_eq vs h,
    vectorized_generator.advance_at_pull vs h k 0, ?_, rfl, hacc, hcall, ?_,
    ⟨_, vectorized_generator.incr_at_pull vs h (0 + k)⟩,
    fun U Args => ⟨_, _, DataGenerator.next_at_pull U Args vs h (0 + k)⟩, fun U Args vec => ?_⟩
  · simp only [vectorized_generator_impl.access_index, vectorized_generator_impl.new]
    split_ifs <;> omega
  · rw [hcall]
    have hg : (vectorized_generator.at_pull vs h (0 + k))._it.m_g._generator = vs := rfl
    rw [hg, List.getElem?_eq_getElem hacc]
    exact ⟨_, _, rfl⟩
  · have hf := DataGenerator.nexts_at_pull U Args vs h vec.length (0 + k)
    rw [← DataGenerator.fill_vector_eq_nexts] at hf
    exact ⟨_, _, hf⟩

/-- Witness of C11: after 7 increments of the stream over `[1, 2, 3]` the next read is in
range and every call returns. -/
theorem no_failure_mid_pull_witness :
    ([1, 2, 3] : List ℚ) ≠ [] ∧
      ∃ g gk, vectorized_generator.new [1, 2, 3] = some g ∧ Gen.advance 7 g = some gk ∧
        gk._it.m_g.access_index < gk._it.m_g._generator.length ∧
        (∃ gk1, Gen.incr gk = some gk1) := by
  refine ⟨by decide, ?_⟩
  obtain ⟨g, gk, hg, hk, -, -, hacc, -, -, hincr, -, -⟩ :=
    no_failure_mid_pull [1, 2, 3] (by decide) 7
  exact ⟨g, gk, hg, hk, hacc, hincr⟩

/-- C17, cursor invariant of the cyclic stream: construction from a non-empty `vs` fetches
`vs[0]` as the current value, and after construction and after every increment the
position `p` of the iterator of `vectorized_generator_impl` satisfies `1 ≤ p ≤ n` and the
current value, which is the value stored in the iterator of the wrapper, is `vs[p - 1]`.
Reading the current value is a function of the state and returns no new state. -/
theorem cursor_invariant (vs : List ℚ) (h : vs ≠ []) (k : ℕ) :
    ∃ g gk, vectorized_generator.new vs = some g ∧ Gen.advance k g = some gk ∧
      vs[0]? = some (Gen.deref g) ∧ g._it.m_g._vec_it = 1 ∧
      1 ≤ gk._it.m_g._vec_it ∧ gk._it.m_g._vec_it ≤ vs.length ∧
      vs[gk._it.m_g._vec_it - 1]? = some (Gen.deref gk) ∧
      Gen.deref gk = gk._it.m_value ∧ gk._it.m_g._generator = vs := by
  obtain ⟨c1, c2, c3⟩ := vectorized_generator.at_pull_cursor vs h (0 + k)
  have h0 := nth_cyclic_getElem_opt vs h 0
  rw [Nat.zero_mod] at h0
  refine ⟨_, _, vectorized_generator.new_eq vs h,
    vectorized_generator.advance_at_pull vs h k 0, h0, ?_, c1, c2, c3, rfl, rfl⟩
  simp [vectorized_generator.at_pull]

/-- Witness of C17: the invariant after 4 increments of the stream over `[1, 2, 3]`. -/
theorem cursor_invariant_witness :
    ([1, 2, 3] : List ℚ) ≠ [] ∧
      ∃ g gk, vectorized_generator.new [1, 2, 3] = some g ∧ Gen.advance 4 g = some gk ∧
        1 ≤ gk._it.m_g._vec_it ∧ gk._it.m_g._vec_it ≤ 3 ∧
        ([1, 2, 3] : List ℚ)[gk._it.m_g._vec_it - 1]? = some (Gen.deref gk) := by
  refine ⟨by decide, ?_⟩
  obtain ⟨g, gk, hg, hk, -, -, c1, c2, c3, -, -⟩ := cursor_invariant [1, 2, 3] (by decide) 4
  exact ⟨g, gk, hg, hk, c1, c2, c3⟩

/-- C18, periodicity of the cyclic stream: in every state that a `vectorized_generator` over
a non-empty `vs` of length `n` reaches by increments, `n` increments (and any multiple of
`n` increments) lead back to the very same state, hence to the same current value and the
same future pulls; a `next` or a `fill_vector` whose pull count is a multiple of `n`, such
as `fill_vector` of `n` arithmetic slots, returns the stream in the state it started in. -/
theorem cyclic_periodicity (vs : List ℚ) (h : vs ≠ []) (k : ℕ) :
    ∃ g gk, vectorized_generator.new vs = some g ∧ Gen.advance k g = some gk ∧
      Gen.advance vs.length gk = some gk ∧
      (∀ m : ℕ, Gen.advance (m * vs.length) gk = some gk) ∧
      (∀ m j : ℕ, (Gen.advance (m * vs.length) gk).bind (Gen.pulls j) = Gen.pulls j gk) ∧
      (∀ (U : Layout) (Args : List Arith) (m : ℕ), leaf_count U Args = m * vs.length →
        ∃ r, DataGenerator.next U Args { _it := gk } = some (r, { _it := gk })) ∧
      (∀ (U : Layout) (Args : List Arith) (vec : List Value) (m : ℕ),
        vec.length * leaf_count U Args = m * vs.length →
        ∃ out, DataGenerator.fill_vector U Args vec { _it := gk } = some (out, { _it := gk })) ∧
      (∀ (T : Arith) (Args : List Arith) (vec : List Value), vec.length = vs.length →
        ∃ out, DataGenerator.fill_vector (.arith T) Args vec { _it := gk } =
          some (out, { _it := gk })) := by
  have hper : ∀ m : ℕ, Gen.advance (m * vs.length) (vectorized_generator.at_pull vs h (0 + k)) =
      some (vectorized_generator.at_pull vs h (0 + k)) := by
    intro m
    rw [vectorized_generator.advance_at_pull, vectorized_generator.at_pull_add_mul]
  have hfill : ∀ (U : Layout) (Args : List Arith) (vec : List Value) (m : ℕ),
      vec.length * leaf_count U Args = m * vs.length →
      ∃ out, DataGenerator.fill_vector U Args vec
          { _it := vectorized_generator.at_pull vs h (0 + k) } =
        some (out, { _it := vectorized_generator.at_pull vs h (0 + k) }) := by
    intro U Args vec m hm
    have hf := DataGenerator.nexts_at_pull U Args vs h vec.length (0 + k)
    rw [← DataGenerator.fill_vector_eq_nexts, hm, vectorized_generator.at_pull_add_mul] at hf
    exact ⟨_, hf⟩
  refine ⟨_, _, vectorized_generator.new_eq vs h,
    vectorized_generator.advance_at_pull vs h k 0, ?_, hper, ?_, ?_, hfill, ?_⟩
  · have := hper 1
    rwa [Nat.one_mul] at this
  · intro m j
    rw [hper m]
    rfl
  · intro U Args m hm
    have hx := DataGenerator.next_at_pull U Args vs h (0 + k)
    rw [hm, vectorized_generator.at_pull_add_mul] at hx
    exact ⟨_, hx⟩
  · intro T Args vec hl
    exact hfill (.arith T) Args vec 1 (by simp [leaf_count, hl])

/-- Witness of C18: after 2 increments of the stream over `[1, 2, 3]`, 3 more increments
lead back to the same state. -/
theorem cyclic_periodicity_witness :
    ([1, 2, 3] : List ℚ) ≠ [] ∧
      ∃ g gk, vectorized_generator.new [1, 2, 3] = some g ∧ Gen.advance 2 g = some gk ∧
        Gen.advance 3 gk = some gk := by
  refine ⟨by decide, ?_⟩
  obtain ⟨g, gk, hg, hk, hp, -⟩ := cyclic_periodicity [1, 2, 3] (by decide) 2
  exact ⟨g, gk, hg, hk, hp⟩

/-- C16, the aggregate path agrees with the leaf path: for every stream, state and list of
arithmetic types `T1..Tn`, `next<S, T1..Tn>` returns (or fails) as the `n` successive calls
`next<T1>()`, ..., `next<Tn>()` from the same state do, leaves the stream in the same state
as they do, and returns the struct initialised with their results in order; for a struct
of `n` arithmetic fields its fields are exactly these results. -/
theorem aggregate_agrees_with_leaves (σ : Type) [Gen σ] (Ts : List Arith)
    (self : DataGenerator σ) :
    self.next (.aggregate (Ts.map Layout.arith)) Ts =
        (DataGenerator.next_each Ts self).map (fun r => (Value.aggregate r.1, r.2)) ∧
      ∀ fs : List Layout, self.next (.aggregate fs) Ts =
        (DataGenerator.next_each Ts self).map
          (fun r => (_to_struct (.aggregate fs) (Value.leaves_fields r.1), r.2)) := by
  refine ⟨?_, fun fs => ?_⟩
  · rw [DataGenerator.next_aggregate_eq, DataGenerator.next_each_eq_pulls]
    cases hp : Gen.pulls Ts.length self._it with
    | none => rfl
    | some r =>
      simp only [Option.map_some', Option.some.injEq, Prod.mk.injEq, and_true]
      exact _to_struct_flat Ts _ (zipWith_static_cast_length Ts _ _ r hp rfl)
  · rw [DataGenerator.next_aggregate_eq, DataGenerator.next_each_eq_pulls]
    cases Gen.pulls Ts.length self._it with
    | none => rfl
    | some r => simp [leaves_fields_arith]

/-- C19, the pull count is driven by the type list: for every stream and state,
`next<S, T1..Tk>` for a struct `S` with at least `k` leaf fields leaves the stream
incremented exactly `k` times, returns a value of layout `S` whose first `k` leaf fields are
the `k` pulled values converted to `T1..Tk` in order and whose remaining leaf fields are
zero; with an empty type list it returns the all-zero struct and the unchanged stream. -/
theorem type_list_drives_pull_count (σ : Type) [Gen σ] (fs : List Layout) (Args : List Arith)
    (self : DataGenerator σ) (hk : Args.length ≤ (Layout.aggregate fs).leaf_types.length) :
    (self.next (.aggregate fs) Args).map (fun r => r.2._it) =
        Gen.advance Args.length self._it ∧
      (self.next (.aggregate fs) Args).map (fun r => r.1.leaves) =
        (Gen.pulls Args.length self._it).map (fun r =>
          List.zipWith static_cast Args r.1 ++
            List.replicate ((Layout.aggregate fs).leaf_types.length - Args.length)
              (Num.val 0)) ∧
      (∀ r g1, self.next (.aggregate fs) Args = some (r, g1) →
        r.has_layout (.aggregate fs)) ∧
      ∃ r, self.next (.aggregate fs) [] = some (r, self) ∧ r.has_layout (.aggregate fs) ∧
        r.leaves = List.replicate (Layout.aggregate fs).leaf_types.length (Num.val 0) := by
  refine ⟨DataGenerator.next_state (.aggregate fs) Args self, ?_, ?_, ?_⟩
  · rw [DataGenerator.next_aggregate_eq]
    cases hp : Gen.pulls Args.length self._it with
    | none => rfl
    | some r =>
      have hl := zipWith_static_cast_length Args _ _ r hp rfl
      simp only [Option.map_some', Option.some.injEq, _to_struct]
      rw [(Layout.init_spec (.aggregate fs) _).1, hl, List.take_of_length_le (by omega)]
  · intro r g1 hr
    rw [DataGenerator.next_aggregate_eq] at hr
    cases hp : Gen.pulls Args.length self._it with
    | none => simp [hp] at hr
    | some q =>
      rw [hp] at hr
      simp only [Option.map_some', Option.some.injEq, Prod.mk.injEq] at hr
      rw [← hr.1]
      exact (Layout.init_spec (.aggregate fs) _).2.2
  · refine ⟨_to_struct (.aggregate fs) [], ?_, (Layout.init_spec (.aggregate fs) []).2.2, ?_⟩
    · rw [DataGenerator.next_aggregate_eq]
      rfl
    · rw [_to_struct, (Layout.init_spec (.aggregate fs) []).1]
      simp

/-- Witness of C19: `next<S, double>` for a struct of three `double` fields on the stream over
`[4, 5, 6]` sets the first field to 4, leaves the other two zero and advances the stream
once. -/
theorem type_list_drives_pull_count_witness :
    [Arith.double].length ≤
        (Layout.aggregate [.arith .double, .arith .double, .arith .double]).leaf_types.length ∧
      (DataGenerator.next (.aggregate [.arith .double, .arith .double, .arith .double])
            [.double] (DataGenerator.mk (vectorized_generator.at_pull [4, 5, 6] (by decide) 0))).map
          (fun r => r.1.leaves) = some [.val 4, .val 0, .val 0] ∧
      (DataGenerator.next (.aggregate [.arith .double, .arith .double, .arith .double])
            [.double] (DataGenerator.mk (vectorized_generator.at_pull [4, 5, 6] (by decide) 0))).map
          (fun r => r.2._it) = some (vectorized_generator.at_pull [4, 5, 6] (by decide) 1) := by
  have hk : [Arith.double].length ≤
      (Layout.aggregate [.arith .double, .arith .double, .arith .double]).leaf_types.length := by
    decide
  obtain ⟨h1, h2, -, -⟩ := type_list_drives_pull_count vectorized_generator
    [.arith .double, .arith .double, .arith .double] [.double]
    (DataGenerator.mk (vectorized_generator.at_pull [4, 5, 6] (by decide) 0)) hk
  refine ⟨hk, ?_, ?_⟩
  · rw [h2]
    simp only [List.length_singleton, vectorized_generator.pulls_at_pull]
    rfl
  · rw [h1]
    exact vectorized_generator.advance_at_pull [4, 5, 6] _ 1 0

/-- C12, numeric conversions never fail: `next<T>` returns exactly when the increment of the
stream returns, and `next` for a struct exactly when the increments for its type list
return, whatever the values pulled and whatever the types; on a cyclic stream over a
non-empty sequence `next<T>` returns the converted current value for every value and every
arithmetic type.  An integer conversion checks no range: it gives the truncated value when
that value is representable and unspecified content otherwise (as for `2 ^ 40` converted
to a 32-bit `int`), never an error. -/
theorem conversions_never_fail :
    (∀ (σ : Type) [Gen σ] (T : Arith) (Args : List Arith) (self : DataGenerator σ),
        (self.next (.arith T) Args).isSome = (Gen.incr self._it).isSome) ∧
      (∀ (σ : Type) [Gen σ] (fs : List Layout) (Args : List Arith) (self : DataGenerator σ),
        (self.next (.aggregate fs) Args).isSome = (Gen.advance Args.length self._it).isSome) ∧
      (∀ (v : ℚ) (vs : List ℚ) (T : Arith) (Args : List Arith), ∃ g g1,
        vectorized_generator.new (v :: vs) = some g ∧
        DataGenerator.next (.arith T) Args { _it := g } =
          some (Value.arith (static_cast T v), g1)) ∧
      (∀ (v : ℚ) (vs : List ℚ) (fs : List Layout) (Args : List Arith), ∃ g r g1,
        vectorized_generator.new (v :: vs) = some g ∧
        DataGenerator.next (.aggregate fs) Args { _it := g } = some (r, g1)) ∧
      (∀ (w : ℕ) (v : ℚ), static_cast (.signed w) v =
        if (Arith.signed w).lo ≤ trunc v ∧ trunc v ≤ (Arith.signed w).hi then .val (trunc v)
        else .indeterminate) ∧
      (∀ (w : ℕ) (v : ℚ), static_cast (.unsigned w) v =
        if (Arith.unsigned w).lo ≤ trunc v ∧ trunc v ≤ (Arith.unsigned w).hi then
          .val (trunc v)
        else .indeterminate) ∧
      static_cast (.signed 32) 1099511627776 = .indeterminate := by
  refine ⟨?_, ?_, ?_, ?_, fun _ _ => rfl, fun _ _ => rfl, ?_⟩
  · intro σ _ T Args self
    simp only [DataGenerator.next]
    cases Gen.incr self._it <;> rfl
  · intro σ _ fs Args self
    have h := DataGenerator.next_state (.aggregate fs) Args self
    simp only [leaf_count] at h
    rw [← h]
    cases self.next (.aggregate fs) Args <;> rfl
  · intro v vs T Args
    exact ⟨_, _, vectorized_generator.new_eq (v :: vs) (List.cons_ne_nil v vs),
      DataGenerator.next_at_pull (.arith T) Args (v :: vs) _ 0⟩
  · intro v vs fs Args
    exact ⟨_, _, _, vectorized_generator.new_eq (v :: vs) (List.cons_ne_nil v vs),
      DataGenerator.next_at_pull (.aggregate fs) Args (v :: vs) _ 0⟩
  · have ht : trunc 1099511627776 = 1099511627776 := by
      simp only [trunc]
      norm_num
    simp only [static_cast, ht, Arith.lo, Arith.hi]
    norm_num

/-- C13 as amended, calls advance the cursor: for every stream with its increments counted,
`next<U, Args...>` adds exactly `leaf_count` increments and `fill_vector` on a vector of
length `L` adds exactly `L * leaf_count` (each returns exactly when the stream can be
incremented so many times).  This is at least one for `next` of an arithmetic type or with
a non-empty type list, and for `fill_vector` of a non-empty vector of such a shape. -/
theorem calls_advance_cursor :
    (∀ (σ : Type) [Gen σ] (U : Layout) (Args : List Arith)
        (self : DataGenerator (counted σ)),
        (self.next U Args).map (fun r => r.2._it.increments) =
          (Gen.advance (leaf_count U Args) self._it.stream).map
            (fun _ => self._it.increments + leaf_count U Args)) ∧
      (∀ (σ : Type) [Gen σ] (U : Layout) (Args : List Arith) (vec : List Value)
        (self : DataGenerator (counted σ)),
        (self.fill_vector U Args vec).map (fun r => r.2._it.increments) =
          (Gen.advance (vec.length * leaf_count U Args) self._it.stream).map
            (fun _ => self._it.increments + vec.length * leaf_count U Args)) ∧
      (∀ (T : Arith) (Args : List Arith), 1 ≤ leaf_count (.arith T) Args) ∧
      (∀ (fs : List Layout) (Args : List Arith), Args ≠ [] →
        1 ≤ leaf_count (.aggregate fs) Args) ∧
      (∀ (U : Layout) (Args : List Arith) (vec : List Value), vec ≠ [] →
        1 ≤ leaf_count U Args → 1 ≤ vec.length * leaf_count U Args) := by
  refine ⟨?_, ?_, fun _ _ => Nat.le_refl 1, ?_, ?_⟩
  · intro σ _ U Args self
    have h := DataGenerator.next_state U Args self
    rw [counted_advance] at h
    cases hn : self.next U Args with
    | none =>
      rw [hn] at h
      cases ha : Gen.advance (leaf_count U Args) self._it.stream with
      | none => rfl
      | some s => rw [ha] at h; simp at h
    | some r =>
      rw [hn] at h
      cases ha : Gen.advance (leaf_count U Args) self._it.stream with
      | none => rw [ha] at h; simp at h
      | some s =>
        rw [ha] at h
        simp only [Option.map_some', Option.some.injEq] at h
        simp [h]
  · intro σ _ U Args vec self
    have h := DataGenerator.nexts_state U Args vec.length self
    rw [← DataGenerator.fill_vector_eq_nexts, counted_advance] at h
    cases hn : self.fill_vector U Args vec with
    | none =>
      rw [hn] at h
      cases ha : Gen.advance (vec.length * leaf_count U Args) self._it.stream with
      | none => rfl
      | some s => rw [ha] at h; simp at h
    | some r =>
      rw [hn] at h
      cases ha : Gen.advance (vec.length * leaf_count U Args) self._it.stream with
      | none => rw [ha] at h; simp at h
      | some s =>
        rw [ha] at h
        simp only [Option.map_some', Option.some.injEq] at h
        simp [h]
  · intro fs Args hA
    exact List.length_pos.2 hA
  · intro U Args vec hv hl
    exact Nat.mul_pos (List.length_pos.2 hv) hl

/-- Witness of C13 as amended: a struct described by one `double` stands for one pull, and a
one-slot vector of it for one pull. -/
theorem calls_advance_cursor_witness :
    ([Arith.double] ≠ [] ∧ 1 ≤ leaf_count (.aggregate [.arith .double]) [.double]) ∧
      ([Value.arith (.val 0)] ≠ [] ∧ 1 ≤ leaf_count (.arith .double) [] ∧
        1 ≤ [Value.arith (.val 0)].length * leaf_count (.arith .double) []) :=
  ⟨⟨by simp, calls_advance_cursor.2.2.2.1 [.arith .double] [.double] (by simp)⟩,
    by simp, Nat.le_refl 1,
    calls_advance_cursor.2.2.2.2 (.arith .double) [] [Value.arith (.val 0)] (by simp)
      (Nat.le_refl 1)⟩

/-- Counterexample to C13 as stated: on the cyclic stream over `[1, 2]`, with no increment
counted so far, `fill_vector` of an empty vector and `next` for a struct with an empty type
list both return with the stream in the state it had and with no increment counted. -/
theorem calls_advance_cursor_counterexample :
    ∃ g, vectorized_generator.new [1, 2] = some g ∧
      DataGenerator.fill_vector (.arith .double) [] []
          (DataGenerator.mk (counted.mk g 0)) =
        some ([], DataGenerator.mk (counted.mk g 0)) ∧
      DataGenerator.next (.aggregate [.arith .double]) []
          (DataGenerator.mk (counted.mk g 0)) =
        some (Value.aggregate [.arith (.val 0)], DataGenerator.mk (counted.mk g 0)) ∧
      ¬ 1 ≤ (counted.mk g 0).increments :=
  ⟨_, vectorized_generator.new_eq [1, 2] (List.cons_ne_nil _ _), rfl, rfl, by simp⟩

/-- C14, determinism: two `vectorized_generator`s constructed from the same sequence `vs`
give the same result for `next` of every shape, and the same outcome at every step and the
same final stream for every sequence of `next` and `fill_vector` calls; every such sequence
of calls returns, with one outcome per call. -/
theorem determinism (vs : List ℚ) (g1 g2 : vectorized_generator)
    (h1 : vectorized_generator.new vs = some g1) (h2 : vectorized_generator.new vs = some g2) :
    (∀ (U : Layout) (Args : List Arith),
        DataGenerator.next U Args { _it := g1 } = DataGenerator.next U Args { _it := g2 }) ∧
      (∀ calls : List Call,
        DataGenerator.run calls { _it := g1 } = DataGenerator.run calls { _it := g2 }) ∧
      (∀ calls : List Call, ∃ rs gf,
        DataGenerator.run calls { _it := g1 } = some (rs, gf) ∧
        DataGenerator.run calls { _it := g2 } = some (rs, gf) ∧ rs.length = calls.length) := by
  have hg : g1 = g2 := Option.some.inj (h1.symm.trans h2)
  subst hg
  refine ⟨fun _ _ => rfl, fun _ => rfl, fun calls => ?_⟩
  have hne : vs ≠ [] := by
    intro he
    subst he
    exact absurd h1 (by simp [show vectorized_generator.new [] = none from rfl])
  have hfresh := vectorized_generator.new_eq vs hne
  rw [h1] at hfresh
  rw [Option.some.inj hfresh]
  obtain ⟨rs, k1, hr, hl⟩ := DataGenerator.run_at_pull calls vs hne 0
  exact ⟨rs, _, hr, hr, hl⟩

/-- Witness of C14: two streams constructed from `[1, 2, 3]` give the same two outcomes for
a `next` followed by a `fill_vector`. -/
theorem determinism_witness :
    vectorized_generator.new [1, 2, 3] =
        some (vectorized_generator.at_pull [1, 2, 3] (by decide) 0) ∧
      ∃ rs gf,
        DataGenerator.run
            [Call.next (.arith .double) [],
              Call.fill_vector (.arith .double) [] [.arith (.val 0), .arith (.val 0)]]
            (DataGenerator.mk (vectorized_generator.at_pull [1, 2, 3] (by decide) 0)) =
          some (rs, gf) ∧
        DataGenerator.run
            [Call.next (.arith .double) [],
              Call.fill_vector (.arith .double) [] [.arith (.val 0), .arith (.val 0)]]
            (DataGenerator.mk (vectorized_generator.at_pull [1, 2, 3] (by decide) 0)) =
          some (rs, gf) ∧
        rs.length = 2 :=
  ⟨vectorized_generator.new_eq [1, 2, 3] (by decide),
    (determinism [1, 2, 3] _ _ (vectorized_generator.new_eq [1, 2, 3] (by decide))
      (vectorized_generator.new_eq [1, 2, 3] (by decide))).2.2 _⟩

/-- C15, range of the random stream: for `min ≤ max`, the `random_generator` constructed
with `(min, max)` exists, and its current value after construction and after any number of
increments lies in the closed interval `[min, max]`. -/
theorem random_range_bounded (eng : mt19937) (min max : ℚ) (h : min ≤ max) (k : ℕ) :
    ∃ g gk, random_generator.new eng min max = some g ∧ Gen.advance k g = some gk ∧
      min ≤ Gen.deref gk ∧ Gen.deref gk ≤ max := by
  have hr := uniform_real_distribution.draw_in_range { _min := min, _max := max } eng h
  cases k with
  | zero => exact ⟨_, _, rfl, rfl, hr⟩
  | succ k =>
    obtain ⟨gk, hk, -, hrange⟩ := random_generator.advance_in_range min max h (k + 1)
      { _it := { m_g := (random_generator_impl.new eng min max).operator_call.2,
                 m_value := (random_generator_impl.new eng min max).operator_call.1 } } rfl
    exact ⟨_, gk, rfl, hk, hrange (Nat.succ_pos k)⟩

/-- Witness of C15: the stream constructed with `(0, 1)` on an engine that counts upward
holds a value in `[0, 1]` after 3 increments. -/
theorem random_range_bounded_witness :
    (0 : ℚ) ≤ 1 ∧
      ∃ g gk, random_generator.new { words := fun i => i, pos := 0 } 0 1 = some g ∧
        Gen.advance 3 g = some gk ∧ 0 ≤ Gen.deref gk ∧ Gen.deref gk ≤ 1 :=
  ⟨zero_le_one, random_range_bounded { words := fun i => i, pos := 0 } 0 1 zero_le_one 3⟩

end dgu
